import Mathlib

/-! ALVR server, Linux `CEncoder`: channel reader, descriptor transfer and frame loop.

A shallow embedding of `alvr/server/cpp/platform/linux/CEncoder.cpp`.

The code talks to the kernel (`poll`, `read`, `accept`, `recvmsg`, `close`), to an
atomic flag written by other threads (`m_exiting`) and to collaborators declared in
headers outside this file (statistics, pose history, renderer, encode pipeline,
network sink).  All of them are gathered in an environment `Env σ`: every call is a
function of the environment state `σ`, so that a run of the code is a pure function
of the environment.  Every call the code makes is appended to a trace, and the
properties below are statements about results and traces.

Loops carry a fuel argument; `Res.spin` is the outcome of a loop that is still
running when the fuel is used up.
-/

namespace ALVR

/-- One octet of a buffer or of the byte stream. -/
abbrev Byte := Nat

/-- Exceptions: the four `MakeException` sites of the file, and whatever a collaborator
raises (identified by a tag). -/
inductive Exn where
  | poll_failed
  | read_failed
  | recvmsg_failed
  | cmsg_is_NULL
  | foreign (tag : Nat)
  deriving DecidableEq, Repr

/-- How a piece of code ends: normally, with a C++ exception, in `abort()` (a failed
`assert`), in `exit(code)`, or not within the fuel given. -/
inductive Res (α : Type) where
  | ok (a : α)
  | throw (e : Exn)
  | abort
  | exit (code : Nat)
  | spin
  deriving DecidableEq, Repr

/-- One control message of a received `msghdr`: `cmsg_level`, `cmsg_type`, the 32-bit
words of its payload (for `SCM_RIGHTS`: the descriptors it carries), and the words of
`control_un` that lie behind the payload (the next header, or stack bytes that
`recvmsg` never wrote). -/
structure Cmsg where
  cmsg_level : Int
  cmsg_type : Int
  data : List Int
  behind : List Int
  deriving DecidableEq, Repr

/-- What `recvmsg` hands back: its return value and the control messages, in the order
`CMSG_FIRSTHDR` / `CMSG_NXTHDR` walk them. -/
structure MsgHdr where
  ret : Int
  control : List Cmsg
  deriving DecidableEq, Repr

/-- Every interaction of the code with the outside, with its arguments and, where it
has one, its result.  The result of a collaborator call is `none` when the call
raised.  For `GetEncoded(encoded_data, &pts)` the argument is the vector as it is
passed in and the result is what the call returns, the vector as it leaves it, and
the value it stores in `pts`. -/
inductive Call where
  | exiting (v : Bool)
  | poll (fd : Int) (timeout : Int) (count : Int)
  | read (fd : Int) (out : Nat) (size : Nat) (ret : Option (List Byte))
  | accept (fd : Int) (ret : Int)
  | recvmsg (fd : Int) (msg : MsgHdr)
  | close (fd : Int)
  | unlink
  | socket (ret : Int)
  | bind (fd : Int) (ret : Int)
  | listen (fd : Int) (backlog : Nat) (ret : Int)
  | perror
  | connected
  | VkContext (device_name : List Byte)
  | FrameRender (fds : List Int)
  | CreateOutput
  | VkFrameCtx
  | VkFrame
  | EncodePipelineCreate
  | CheckBitrateUpdated (ret : Option Bool)
  | GetBitrate (ret : Option Nat)
  | SetBitrate (bits : Nat)
  | GetBestPoseMatch (pose : List Byte) (ret : Option (Option Nat))
  | ReportPresent (ts : Nat)
  | Render (image : Nat) (semaphore_value : Nat)
  | ReportComposed (ts : Nat)
  | CheckIDRInsertion (ret : Option Bool)
  | PushFrame (ts : Nat) (idr : Bool)
  | GetEncoded (encoded_data : List Byte) (ret : Option (Bool × List Byte × Nat))
  | SendVideo (data : List Byte) (len : Nat) (pts : Nat)
  | EncodeOutput
  | Error (e : Exn)
  deriving DecidableEq, Repr

/-- The outside world as the code sees it.  Each field answers one kind of call in
environment state `σ` and gives the next state.  A collaborator call answers
`Except.error` when it raises. -/
structure Env (σ : Type) where
  exiting : σ → Bool × σ
  poll : Int → Int → σ → Int × σ
  read : Int → Nat → σ → Option (List Byte) × σ
  accept : Int → σ → Int × σ
  recvmsg : Int → σ → MsgHdr × σ
  socket : σ → Int × σ
  bind : Int → σ → Int × σ
  listen : Int → σ → Int × σ
  setup : Nat → σ → Except Exn Unit × σ
  CheckBitrateUpdated : σ → Except Exn Bool × σ
  GetBitrate : σ → Except Exn Nat × σ
  SetBitrate : Nat → σ → Except Exn Unit × σ
  GetBestPoseMatch : List Byte → σ → Except Exn (Option Nat) × σ
  ReportPresent : Nat → σ → Except Exn Unit × σ
  Render : Nat → Nat → σ → Except Exn Unit × σ
  ReportComposed : Nat → σ → Except Exn Unit × σ
  CheckIDRInsertion : σ → Except Exn Bool × σ
  PushFrame : Nat → Bool → σ → Except Exn Unit × σ
  GetEncoded : List Byte → σ → Except Exn (Bool × List Byte × Nat) × σ
  SendVideo : List Byte → Nat → Nat → σ → Except Exn Unit × σ
  EncodeOutput : σ → Except Exn Unit × σ

/-- Environment state together with the calls made so far, oldest first. -/
structure World (σ : Type) where
  sys : σ
  trace : List Call
  deriving DecidableEq

/-- Code running against the world. -/
def M (σ : Type) (α : Type) : Type := World σ → Res α × World σ

/-- Sequencing: the continuation runs only after a normal end. -/
def M.bind {σ α β : Type} (m : M σ α) (f : α → M σ β) : M σ β := fun w =>
  match m w with
  | (Res.ok a, w1) => f a w1
  | (Res.throw e, w1) => (Res.throw e, w1)
  | (Res.abort, w1) => (Res.abort, w1)
  | (Res.exit c, w1) => (Res.exit c, w1)
  | (Res.spin, w1) => (Res.spin, w1)

instance (σ : Type) : Monad (M σ) where
  pure a := fun w => (Res.ok a, w)
  bind := M.bind

/-- The C++ `throw`. -/
def raise {σ α : Type} (e : Exn) : M σ α := fun w => (Res.throw e, w)

/-- Ending with an outcome that is no value: `abort()`, `exit(code)`, fuel used up. -/
def halt {σ α : Type} (r : Res α) : M σ α := fun w => (r, w)

/-- The C++ `try { body } catch (std::exception &e) { handler }`. -/
def try_catch {σ α : Type} (body : M σ α) (handler : Exn → M σ α) : M σ α := fun w =>
  match body w with
  | (Res.throw e, w1) => handler e w1
  | r => r

/-- Append one call to the trace. -/
def emit {σ : Type} (c : Call) : M σ Unit := fun w =>
  (Res.ok (), { w with trace := w.trace ++ [c] })

/-- A kernel call or flag load: ask the environment, record the call with its result. -/
def ask {σ α : Type} (f : σ → α × σ) (c : α → Call) : M σ α := fun w =>
  match f w.sys with
  | (a, s) => (Res.ok a, { sys := s, trace := w.trace ++ [c a] })

/-- A collaborator call: as `ask`, but the collaborator may raise; the call is recorded
in both cases. -/
def invoke {σ α : Type} (f : σ → Except Exn α × σ) (c : Option α → Call) : M σ α := fun w =>
  match f w.sys with
  | (Except.ok a, s) => (Res.ok a, { sys := s, trace := w.trace ++ [c (some a)] })
  | (Except.error e, s) => (Res.throw e, { sys := s, trace := w.trace ++ [c none] })

/-- The bytes of `mem` with `bs` stored from position `out` on (what `read` does with
its second argument). -/
def store (mem : List Byte) (out : Nat) (bs : List Byte) : List Byte :=
  mem.take out ++ bs ++ mem.drop (out + bs.length)

/-- The call `read(fd, out, size)`: the kernel stores at most `size` bytes, so what the
environment offers is cut to the request; `none` is the return value `-1`.  The
count returned is the number of bytes stored (it fits the `int s` of the caller). -/
def sys_read {σ : Type} (env : Env σ) (fd : Int) (out size : Nat) : M σ (Option (List Byte)) :=
  ask (fun s =>
      match env.read fd size s with
      | (ret, s1) => (ret.map (List.take size), s1))
    (Call.read fd out size)

/-- The locals of `read_exactly` when it returns: the memory `out` points into, the
advanced `out` and the `size` still missing. -/
structure ReadState where
  mem : List Byte
  out : Nat
  size : Nat
  deriving DecidableEq, Repr

/-- The function `read_exactly(pollfds, out, size, exiting)`.  `mem` is the object the
caller's pointer refers to and `out` the offset of the pointer in it. -/
def read_exactly {σ : Type} (env : Env σ) (fd : Int) :
    Nat → List Byte → Nat → Nat → M σ ReadState
  | 0, _, _, _ => halt Res.spin
  | fuel + 1, mem, out, size => do
    let exiting ← ask env.exiting Call.exiting
    if !exiting && size != 0 then
      let timeout : Int := 1
      let count ← ask (env.poll fd timeout) (Call.poll fd timeout)
      if count < 0 then
        raise Exn.poll_failed
      else if count == 1 then
        let s ← sys_read env fd out size
        match s with
        | none => raise Exn.read_failed
        | some bs => read_exactly env fd fuel (store mem out bs) (out + bs.length) (size - bs.length)
      else
        read_exactly env fd fuel mem out size
    else
      pure { mem := mem, out := out, size := size }

/-- The function `read_latest`'s `while (not exiting)` loop; `inner` is the fuel of the
`read_exactly` calls in it. -/
def read_latest_loop {σ : Type} (env : Env σ) (fd : Int) (inner : Nat) (out size : Nat) :
    Nat → List Byte → M σ (List Byte)
  | 0, _ => halt Res.spin
  | fuel + 1, mem => do
    let exiting ← ask env.exiting Call.exiting
    if !exiting then
      let timeout : Int := 0
      let count ← ask (env.poll fd timeout) (Call.poll fd timeout)
      if count == 0 then
        pure mem
      else
        let r ← read_exactly env fd inner mem out size
        read_latest_loop env fd inner out size fuel r.mem
    else
      pure mem

/-- The function `read_latest(pollfds, out, size, exiting)`; the result is the memory
`out` points into. -/
def read_latest {σ : Type} (env : Env σ) (fd : Int) (fuel : Nat) (mem : List Byte)
    (out size : Nat) : M σ (List Byte) := do
  let r ← read_exactly env fd fuel mem out size
  read_latest_loop env fd fuel out size fuel r.mem

/-- The function `accept_timeout(socket, exiting)`. -/
def accept_timeout {σ : Type} (env : Env σ) (socket : Int) : Nat → M σ Int
  | 0 => halt Res.spin
  | fuel + 1 => do
    let exiting ← ask env.exiting Call.exiting
    if !exiting then
      let timeout : Int := 15
      let count ← ask (env.poll socket timeout) (Call.poll socket timeout)
      if count < 0 then
        raise Exn.poll_failed
      else if count == 1 then
        ask (env.accept socket) (Call.accept socket)
      else
        accept_timeout env socket fuel
    else
      pure (-1)

/-- The value of `SOL_SOCKET` on Linux. -/
def SOL_SOCKET : Int := 1

/-- The value of `SCM_RIGHTS` on Linux. -/
def SCM_RIGHTS : Int := 1

/-- The call `memcpy(dst, src, n * sizeof(int))` on arrays of `int`: the first `n` words
of `dst` become the first `n` words found at `src`. -/
def memcpy (dst src : List Int) (n : Nat) : List Int :=
  src.take n ++ dst.drop (src.take n).length

/-- The `for (cmsg = CMSG_FIRSTHDR; cmsg != NULL; cmsg = CMSG_NXTHDR)` loop of `GetFds`:
`some` of the filled array after the `break`, `none` when the loop ends with
`cmsg == NULL`.  The copy takes `sizeof(*received_fds)`, six words, from `CMSG_DATA`
on: the payload and then what lies behind it. -/
def GetFds_scan (received_fds : List Int) : List Cmsg → Option (List Int)
  | [] => none
  | cmsg :: rest =>
    if cmsg.cmsg_level == SOL_SOCKET && cmsg.cmsg_type == SCM_RIGHTS then
      some (memcpy received_fds (cmsg.data ++ cmsg.behind) 6)
    else
      GetFds_scan received_fds rest

/-- The method `CEncoder::GetFds(client, received_fds)`; the result is the array
`*received_fds`. -/
def GetFds {σ : Type} (env : Env σ) (client : Int) (received_fds : List Int) :
    M σ (List Int) := do
  let msg ← ask (env.recvmsg client) (Call.recvmsg client)
  if msg.ret == -1 then
    raise Exn.recvmsg_failed
  else
    match GetFds_scan received_fds msg.control with
    | some fds => pure fds
    | none => raise Exn.cmsg_is_NULL

/-- The Vulkan structure `VkImageCreateInfo`, reduced to its pointer-shaped members and
the count that goes with `pQueueFamilyIndices`; value members play no part in `Run`.
`Run` reads `pNext` and `queueFamilyIndexCount`; `pQueueFamilyIndices` is the
remaining pointer member of the structure in the Vulkan headers. -/
structure VkImageCreateInfo where
  pNext : Nat
  queueFamilyIndexCount : Nat
  pQueueFamilyIndices : Nat
  deriving DecidableEq, Repr

/-- The members of `init_packet` that `Run` reads. -/
structure init_packet where
  source_pid : Int
  device_name : List Byte
  image_create_info : VkImageCreateInfo
  deriving DecidableEq, Repr

/-- The members of `present_packet` that `Run` reads; `pose` is the 12-float matrix as
raw bytes, which `Run` only passes on. -/
structure present_packet where
  image : Nat
  semaphore_value : Nat
  pose : List Byte
  deriving DecidableEq, Repr

/-- Modelled from the spec: the header `protocol.h` with the layout of `init_packet`
and `present_packet` is not among the sources.  The layout is a parameter: the two
sizes and, for each record, the members read out of its bytes (the casts
`(char *)&init` and `(char *)&frame_info`). -/
structure Protocol where
  sizeof_init_packet : Nat
  sizeof_present_packet : Nat
  as_init_packet : List Byte → init_packet
  as_present_packet : List Byte → present_packet

/-- The locals of `Run` that live across iterations of the main loop. -/
structure Locals where
  frame_info : List Byte
  encoded_data : List Byte
  deriving DecidableEq, Repr

/-- Lines 214 to 216 of `Run`: the pending bitrate update is handed to the encoder.
`GetBitrate() * 1000000L` is taken without overflow. -/
def Run_bitrate {σ : Type} (env : Env σ) : M σ Unit := do
  let updated ← invoke env.CheckBitrateUpdated Call.CheckBitrateUpdated
  if updated then
    let bitrate ← invoke env.GetBitrate Call.GetBitrate
    invoke (env.SetBitrate (bitrate * 1000000)) (fun _ => Call.SetBitrate (bitrate * 1000000))
  else
    pure ()

/-- Lines 225 to 247 of `Run`: the frame whose pose matched is rendered, pushed to the
encoder, and the encoder is asked for output.  `mem` is the bytes of `frame_info`.
Reading the clock (`steady_clock::now()`) is left out. -/
def Run_encode {σ : Type} (env : Env σ) (mem : List Byte) (frame_info : present_packet)
    (targetTimestampNs : Nat) : M σ Locals := do
  invoke (env.ReportPresent targetTimestampNs) (fun _ => Call.ReportPresent targetTimestampNs)
  invoke (env.Render frame_info.image frame_info.semaphore_value)
    (fun _ => Call.Render frame_info.image frame_info.semaphore_value)
  invoke (env.ReportComposed targetTimestampNs) (fun _ => Call.ReportComposed targetTimestampNs)
  let idr ← invoke env.CheckIDRInsertion Call.CheckIDRInsertion
  invoke (env.PushFrame targetTimestampNs idr) (fun _ => Call.PushFrame targetTimestampNs idr)
  let cleared : List Byte := []
  let got ← invoke (env.GetEncoded cleared) (Call.GetEncoded cleared)
  let encoded_data := got.2.1
  let pts := got.2.2
  if !got.1 then
    pure { frame_info := mem, encoded_data := encoded_data }
  else
    invoke (env.SendVideo encoded_data encoded_data.length pts)
      (fun _ => Call.SendVideo encoded_data encoded_data.length pts)
    invoke env.EncodeOutput (fun _ => Call.EncodeOutput)
    pure { frame_info := mem, encoded_data := encoded_data }

/-- Lines 214 to 247 of `Run`: what an iteration of the main loop does once
`read_latest` has returned, `mem` being the bytes of `frame_info`.  A `continue` ends
the pass normally. -/
def Run_frame {σ : Type} (env : Env σ) (P : Protocol) (mem : List Byte) (l : Locals) :
    M σ Locals := do
  let frame_info := P.as_present_packet mem
  Run_bitrate env
  let pose ← invoke (env.GetBestPoseMatch frame_info.pose) (Call.GetBestPoseMatch frame_info.pose)
  match pose with
  | none => pure { frame_info := mem, encoded_data := l.encoded_data }
  | some targetTimestampNs => Run_encode env mem frame_info targetTimestampNs

/-- One pass through the body of `while (not m_exiting)` in `Run` (lines 212 to 247):
`read_latest` into `frame_info`, then the rest of the body. -/
def Run_iteration {σ : Type} (env : Env σ) (P : Protocol) (fuel : Nat) (client : Int)
    (l : Locals) : M σ Locals := do
  let mem ← read_latest env client fuel l.frame_info 0 P.sizeof_present_packet
  Run_frame env P mem l

/-- The main loop `while (not m_exiting) { ... }` of `Run`. -/
def Run_loop {σ : Type} (env : Env σ) (P : Protocol) (inner : Nat) (client : Int) :
    Nat → Locals → M σ Locals
  | 0, _ => halt Res.spin
  | fuel + 1, l => do
    let exiting ← ask env.exiting Call.exiting
    if !exiting then
      let l1 ← Run_iteration env P inner client l
      Run_loop env P inner client fuel l1
    else
      pure l

/-- The body of the `try` block of `Run` (lines 188 to 249).  `m_fds` is the member of
that name as it is before the call; the store `m_connected = true` is recorded in
the trace. -/
def Run_session {σ : Type} (env : Env σ) (P : Protocol) (fuel : Nat) (client : Int)
    (init : init_packet) (frame_info : List Byte) (m_fds : List Int) : M σ Unit := do
  let m_fds ← GetFds env client m_fds
  emit Call.connected
  invoke (env.setup 0) (fun _ => Call.VkContext init.device_name)
  invoke (env.setup 1) (fun _ => Call.FrameRender m_fds)
  invoke (env.setup 2) (fun _ => Call.CreateOutput)
  invoke (env.setup 3) (fun _ => Call.VkFrameCtx)
  invoke (env.setup 4) (fun _ => Call.VkFrame)
  invoke (env.setup 5) (fun _ => Call.EncodePipelineCreate)
  let _ ← Run_loop env P fuel client fuel { frame_info := frame_info, encoded_data := [] }
  pure ()

/-- Lines 176 to 258 of `Run`: from the two `assert`s on the handshake record, whose
bytes are `init_mem`, to `close(client.fd)`.  `ndebug` tells whether the file was
compiled with `NDEBUG`, which turns `assert` into nothing.  Log output (`Info`,
`fprintf`) and the lookup of `/proc/<pid>/cmdline` for it are left out. -/
def Run_connected {σ : Type} (env : Env σ) (P : Protocol) (ndebug : Bool) (fuel : Nat)
    (client : Int) (init_mem frame_info : List Byte) (m_fds : List Int) : M σ Unit := do
  let init := P.as_init_packet init_mem
  if !ndebug && init.image_create_info.queueFamilyIndexCount != 0 then
    halt Res.abort
  else if !ndebug && init.image_create_info.pNext != 0 then
    halt Res.abort
  else
    try_catch (Run_session env P fuel client init frame_info m_fds)
      (fun e => emit (Call.Error e))
    emit (Call.close client)

/-- The method `CEncoder::Run()`.  `init` and `frame_info` are the bytes the two
uninitialised locals of these names hold when their storage is taken, `m_fds` the
member of that name; `fd` is `m_socket.fd`. -/
def Run {σ : Type} (env : Env σ) (P : Protocol) (ndebug : Bool) (fuel : Nat)
    (init frame_info : List Byte) (m_fds : List Int) : M σ Unit := do
  emit Call.unlink
  let fd ← ask env.socket Call.socket
  if fd == -1 then
    emit Call.perror
    halt (Res.exit 1)
  else
    let ret ← ask (env.bind fd) (Call.bind fd)
    if ret == -1 then
      emit Call.perror
      halt (Res.exit 1)
    else
      let ret ← ask (env.listen fd) (Call.listen fd 1024)
      if ret == -1 then
        emit Call.perror
        halt (Res.exit 1)
      else
        let client ← accept_timeout env fd fuel
        let exiting ← ask env.exiting Call.exiting
        if exiting then
          pure ()
        else
          let r ← read_exactly env client fuel init 0 P.sizeof_init_packet
          let exiting ← ask env.exiting Call.exiting
          if exiting then
            pure ()
          else
            Run_connected env P ndebug fuel client r.mem frame_info m_fds

/-! ## Environments and inputs used in examples -/

/-- An environment in which nothing happens: the flag is never set, no descriptor is
ever ready, no collaborator raises, no pose matches and the encoder has no output. -/
def Env.idle (σ : Type) : Env σ where
  exiting s := (false, s)
  poll _ _ s := (0, s)
  read _ _ s := (some [], s)
  accept _ s := (-1, s)
  recvmsg _ s := ({ ret := -1, control := [] }, s)
  socket s := (3, s)
  bind _ s := (0, s)
  listen _ s := (0, s)
  setup _ s := (Except.ok (), s)
  CheckBitrateUpdated s := (Except.ok false, s)
  GetBitrate s := (Except.ok 30, s)
  SetBitrate _ s := (Except.ok (), s)
  GetBestPoseMatch _ s := (Except.ok none, s)
  ReportPresent _ s := (Except.ok (), s)
  Render _ _ s := (Except.ok (), s)
  ReportComposed _ s := (Except.ok (), s)
  CheckIDRInsertion s := (Except.ok false, s)
  PushFrame _ _ s := (Except.ok (), s)
  GetEncoded cur s := (Except.ok (false, cur, 0), s)
  SendVideo _ _ _ s := (Except.ok (), s)
  EncodeOutput s := (Except.ok (), s)

/-- One scripted answer of the environment. -/
inductive Answer where
  | flag (v : Bool)
  | ready (count : Int)
  | data (ret : Option (List Byte))
  | conn (fd : Int)
  | msg (m : MsgHdr)
  | updated (v : Bool)
  | pose (ret : Option Nat)
  | idr (v : Bool)
  | pull (got : Bool) (bytes : List Byte) (pts : Nat)
  deriving DecidableEq, Repr

/-- The environment that answers from a script, a list of answers in the order of the
calls: a load of the flag takes a `flag` off the front, `poll` a `ready`, `read` a
`data`, `accept` a `conn`, `recvmsg` a `msg`, `CheckBitrateUpdated` an `updated`,
`GetBestPoseMatch` a `pose`, `CheckIDRInsertion` an `idr`, and `GetEncoded` a `pull`,
whose bytes it appends to the vector it is given.  When the front of the script is
not the answer called for, the script stays and the flag reads `true`, `poll` times
out, `read` is at end of stream, `accept` and `recvmsg` fail, no bitrate update is
pending, no pose matches, no keyframe is forced and the encoder has no output.  The
other calls succeed and `GetBitrate` answers 30. -/
def scripted : Env (List Answer) :=
  { Env.idle (List Answer) with
    exiting := fun s =>
      match s with
      | Answer.flag v :: t => (v, t)
      | _ => (true, s)
    poll := fun _ _ s =>
      match s with
      | Answer.ready count :: t => (count, t)
      | _ => (0, s)
    read := fun _ _ s =>
      match s with
      | Answer.data ret :: t => (ret, t)
      | _ => (some [], s)
    accept := fun _ s =>
      match s with
      | Answer.conn fd :: t => (fd, t)
      | _ => (-1, s)
    recvmsg := fun _ s =>
      match s with
      | Answer.msg m :: t => (m, t)
      | _ => ({ ret := -1, control := [] }, s)
    CheckBitrateUpdated := fun s =>
      match s with
      | Answer.updated v :: t => (Except.ok v, t)
      | _ => (Except.ok false, s)
    GetBestPoseMatch := fun _ s =>
      match s with
      | Answer.pose ret :: t => (Except.ok ret, t)
      | _ => (Except.ok none, s)
    CheckIDRInsertion := fun s =>
      match s with
      | Answer.idr v :: t => (Except.ok v, t)
      | _ => (Except.ok false, s)
    GetEncoded := fun cur s =>
      match s with
      | Answer.pull got bytes pts :: t => (Except.ok (got, cur ++ bytes, pts), t)
      | _ => (Except.ok (false, cur, 0), s) }

/-- A connection on which the producer has queued bytes and then gone quiet: the state
is the queue, `poll` reports the descriptor ready while the queue is not empty, and a
`read` takes at most `chunk` bytes off its front. -/
def queued (chunk : Nat) : Env (List Byte) :=
  { Env.idle (List Byte) with
    poll := fun _ _ s => (if s = [] then 0 else 1, s)
    read := fun _ n s => (some (s.take (min n chunk)), s.drop (min n chunk)) }

/-- A connection whose producer has gone away: the descriptor is always ready and every
`read` returns 0. -/
def hung_up : Env Unit :=
  { Env.idle Unit with
    poll := fun _ _ s => (1, s) }

/-- A small layout for examples: a handshake record of four bytes (pid, `pNext`,
`queueFamilyIndexCount`, `pQueueFamilyIndices`) and a present record of three (image,
semaphore value, one byte of pose). -/
def tiny : Protocol where
  sizeof_init_packet := 4
  sizeof_present_packet := 3
  as_init_packet bs :=
    { source_pid := bs.getD 0 0
      device_name := []
      image_create_info :=
        { pNext := bs.getD 1 0, queueFamilyIndexCount := bs.getD 2 0,
          pQueueFamilyIndices := bs.getD 3 0 } }
  as_present_packet bs :=
    { image := bs.getD 0 0, semaphore_value := bs.getD 1 0, pose := bs.drop 2 }

/-- The member `m_fds` before `Run`. -/
def no_fds : List Int := [0, 0, 0, 0, 0, 0]

/-- The calls by which `read_latest` takes one record of three bytes, delivered in one
piece, off descriptor 7, with nothing queued behind it. -/
def one_record (b0 b1 b2 : Byte) : List Call :=
  [Call.exiting false, Call.poll 7 1 1, Call.read 7 0 3 (some [b0, b1, b2]), Call.exiting false,
    Call.exiting false, Call.poll 7 0 0]

/-- Script of one iteration: the record `5 6 7` arrives, no bitrate update is pending,
its pose matches with timestamp 42, a keyframe is forced, and the encoder answers the
pull with `pull`. -/
def one_frame (pull : Answer) : List Answer :=
  [Answer.flag false, Answer.ready 1, Answer.data (some [5, 6, 7]), Answer.flag false,
    Answer.flag false, Answer.ready 0, Answer.updated false, Answer.pose (some 42),
    Answer.idr true, pull]

/-- Script of a run of the main loop: three records arrive one per iteration, their
poses match with timestamps 42, 43 and 44, the encoder has no output for the first
two pushes and two bytes with timestamp 88 for the third, and then the flag is set. -/
def three_frames : List Answer :=
  [Answer.flag false] ++ one_frame (Answer.pull false [] 0) ++
  [Answer.flag false, Answer.flag false, Answer.ready 1, Answer.data (some [8, 9, 10]),
    Answer.flag false, Answer.flag false, Answer.ready 0, Answer.updated false,
    Answer.pose (some 43), Answer.idr false, Answer.pull false [] 0] ++
  [Answer.flag false, Answer.flag false, Answer.ready 1, Answer.data (some [11, 12, 13]),
    Answer.flag false, Answer.flag false, Answer.ready 0, Answer.updated false,
    Answer.pose (some 44), Answer.idr false, Answer.pull true [1, 2] 88] ++
  [Answer.flag true]

/-- The calls of the main loop under `three_frames`. -/
def three_frames_trace : List Call :=
  [Call.exiting false] ++ one_record 5 6 7 ++
    [Call.CheckBitrateUpdated (some false), Call.GetBestPoseMatch [7] (some (some 42)),
      Call.ReportPresent 42, Call.Render 5 6, Call.ReportComposed 42,
      Call.CheckIDRInsertion (some true), Call.PushFrame 42 true,
      Call.GetEncoded [] (some (false, [], 0))] ++
  [Call.exiting false] ++ one_record 8 9 10 ++
    [Call.CheckBitrateUpdated (some false), Call.GetBestPoseMatch [10] (some (some 43)),
      Call.ReportPresent 43, Call.Render 8 9, Call.ReportComposed 43,
      Call.CheckIDRInsertion (some false), Call.PushFrame 43 false,
      Call.GetEncoded [] (some (false, [], 0))] ++
  [Call.exiting false] ++ one_record 11 12 13 ++
    [Call.CheckBitrateUpdated (some false), Call.GetBestPoseMatch [13] (some (some 44)),
      Call.ReportPresent 44, Call.Render 11 12, Call.ReportComposed 44,
      Call.CheckIDRInsertion (some false), Call.PushFrame 44 false,
      Call.GetEncoded [] (some (true, [1, 2], 88)), Call.SendVideo [1, 2] 2 88,
      Call.EncodeOutput] ++
  [Call.exiting true]

/-- A received message whose `SCM_RIGHTS` control message carries three descriptors;
behind them in `control_un` lie a word of padding and words `recvmsg` never wrote. -/
def short_message : MsgHdr :=
  { ret := 1
    control := [{ cmsg_level := 1, cmsg_type := 1, data := [10, 11, 12], behind := [0, 32764, -1, 5] }] }

/-- A received message whose `SCM_RIGHTS` control message carries six descriptors. -/
def full_message : MsgHdr :=
  { ret := 1
    control := [{ cmsg_level := 1, cmsg_type := 1, data := [10, 11, 12, 13, 14, 15], behind := [] }] }

/-! ## Reading traces -/

/-- The bytes delivered by the reads recorded in a piece of trace, in order. -/
def consumed : List Call → List Byte
  | [] => []
  | Call.read _ _ _ (some bs) :: cs => bs ++ consumed cs
  | _ :: cs => consumed cs

/-- Every read recorded in a piece of trace is a read on `fd` whose destination is
`out` advanced by the bytes delivered before it, and whose request is `size` less the
bytes delivered before it. -/
def chained (fd : Int) : Nat → Nat → List Call → Prop
  | _, _, [] => True
  | out, size, Call.read fd1 o n r :: cs =>
    fd1 = fd ∧ o = out ∧ n = size ∧
      chained fd (out + (r.getD []).length) (size - (r.getD []).length) cs
  | out, size, _ :: cs => chained fd out size cs


/-- A quiet connection: seen through `buf`, the bytes queued on `fd`, the flag is never
set, `poll` reports `fd` ready exactly while bytes are queued and leaves them alone,
and a `read` asking for `n > 0` bytes of a non-empty queue takes between 1 and `n`
bytes off its front.  Nothing arrives in between. -/
def Quiet {σ : Type} (env : Env σ) (fd : Int) (buf : σ → List Byte) : Prop :=
  (∀ s, (env.exiting s).1 = false ∧ buf (env.exiting s).2 = buf s) ∧
  (∀ t s, (env.poll fd t s).1 = (if buf s = [] then 0 else 1) ∧ buf (env.poll fd t s).2 = buf s) ∧
  (∀ n s, 0 < n → buf s ≠ [] →
    ∃ bs, (env.read fd n s).1 = some bs ∧ bs ≠ [] ∧ bs.length ≤ n ∧
      buf s = bs ++ buf (env.read fd n s).2)

/-- The calls of the channel reader: loads of the flag, `poll` and `read`. -/
def Call.is_channel : Call → Bool
  | Call.exiting _ => true
  | Call.poll _ _ _ => true
  | Call.read _ _ _ _ => true
  | _ => false

/-- The calls of lines 214 to 216: the bitrate update. -/
def Call.is_bitrate : Call → Bool
  | Call.CheckBitrateUpdated _ => true
  | Call.GetBitrate _ => true
  | Call.SetBitrate _ => true
  | _ => false

/-- The calls of lines 225 to 247: timing marks, renderer, keyframe decision, encoder
push and pull, network sink and output statistics. -/
def Call.is_frame : Call → Bool
  | Call.ReportPresent _ => true
  | Call.Render _ _ => true
  | Call.ReportComposed _ => true
  | Call.CheckIDRInsertion _ => true
  | Call.PushFrame _ _ => true
  | Call.GetEncoded _ _ => true
  | Call.SendVideo _ _ _ => true
  | Call.EncodeOutput => true
  | _ => false

/-- The calls from `ReportPresent` to `PushFrame` for a frame with timestamp `ts`. -/
def push_calls (ts image semaphore_value : Nat) (idr : Bool) : List Call :=
  [Call.ReportPresent ts, Call.Render image semaphore_value, Call.ReportComposed ts,
    Call.CheckIDRInsertion (some idr), Call.PushFrame ts idr]

/-- The calls lines 225 to 247 can make, with the outcome that goes with them: the
calls up to the one that raised, or all of them up to the pull that yields nothing,
or all of them. -/
def EncodeSeg (ts image semaphore_value : Nat) (mem : List Byte) (res : Res Locals)
    (es : List Call) : Prop :=
  ((∀ l, res ≠ Res.ok l) ∧
    (es = [Call.ReportPresent ts] ∨
      es = [Call.ReportPresent ts, Call.Render image semaphore_value] ∨
      es = [Call.ReportPresent ts, Call.Render image semaphore_value,
        Call.ReportComposed ts] ∨
      es = [Call.ReportPresent ts, Call.Render image semaphore_value,
        Call.ReportComposed ts, Call.CheckIDRInsertion none])) ∨
  ∃ idr,
    ((∀ l, res ≠ Res.ok l) ∧
      (es = push_calls ts image semaphore_value idr ∨
        es = push_calls ts image semaphore_value idr ++ [Call.GetEncoded [] none])) ∨
    (∃ data pts, res = Res.ok { frame_info := mem, encoded_data := data } ∧
      es = push_calls ts image semaphore_value idr ++
        [Call.GetEncoded [] (some (false, data, pts))]) ∨
    ∃ data pts,
      ((∀ l, res ≠ Res.ok l) ∧
        (es = push_calls ts image semaphore_value idr ++
            [Call.GetEncoded [] (some (true, data, pts)),
              Call.SendVideo data data.length pts] ∨
          es = push_calls ts image semaphore_value idr ++
            [Call.GetEncoded [] (some (true, data, pts)),
              Call.SendVideo data data.length pts, Call.EncodeOutput])) ∨
      (res = Res.ok { frame_info := mem, encoded_data := data } ∧
        es = push_calls ts image semaphore_value idr ++
          [Call.GetEncoded [] (some (true, data, pts)),
            Call.SendVideo data data.length pts, Call.EncodeOutput])

/-- The calls lines 218 to 247 can make for the record whose bytes are `mem`, with the
outcome that goes with them: none (the iteration ended before), the pose lookup
alone when it raised or found nothing, or the lookup that found a record with
timestamp `ts` followed by the calls of `EncodeSeg`. -/
def FrameSeg (P : Protocol) (mem : List Byte) (l : Locals) (res : Res Locals)
    (fs : List Call) : Prop :=
  ((∀ l1, res ≠ Res.ok l1) ∧
    (fs = [] ∨ fs = [Call.GetBestPoseMatch (P.as_present_packet mem).pose none])) ∨
  (res = Res.ok { frame_info := mem, encoded_data := l.encoded_data } ∧
    fs = [Call.GetBestPoseMatch (P.as_present_packet mem).pose (some none)]) ∨
  ∃ ts es, fs = Call.GetBestPoseMatch (P.as_present_packet mem).pose (some (some ts)) :: es ∧
    EncodeSeg ts (P.as_present_packet mem).image (P.as_present_packet mem).semaphore_value
      mem res es

/-- Whatever the outcome, `m` adds to the trace only calls that satisfy `p`. -/
def Emits {σ α : Type} (p : Call → Prop) (m : M σ α) : Prop :=
  ∀ w res w1, m w = (res, w1) → ∃ seg, w1.trace = w.trace ++ seg ∧ ∀ c ∈ seg, p c

/-- The timestamps of the poses matched in a piece of trace, in order. -/
def matched (seg : List Call) : List Nat :=
  seg.filterMap fun c =>
    match c with
    | Call.GetBestPoseMatch _ (some (some ts)) => some ts
    | _ => none

/-- The timestamps of the frames pushed to the encoder in a piece of trace, in order. -/
def pushed (seg : List Call) : List Nat :=
  seg.filterMap fun c =>
    match c with
    | Call.PushFrame ts _ => some ts
    | _ => none

/-- The arguments of the renderer calls in a piece of trace, in order. -/
def rendered (seg : List Call) : List (Nat × Nat) :=
  seg.filterMap fun c =>
    match c with
    | Call.Render image semaphore_value => some (image, semaphore_value)
    | _ => none

/-- The encoder pulls that yielded output in a piece of trace. -/
def pulled (seg : List Call) : List Unit :=
  seg.filterMap fun c =>
    match c with
    | Call.GetEncoded _ (some (true, _, _)) => some ()
    | _ => none

/-- The arguments of the calls of the network sink in a piece of trace, in order. -/
def sent (seg : List Call) : List (List Byte × Nat × Nat) :=
  seg.filterMap fun c =>
    match c with
    | Call.SendVideo data len pts => some (data, len, pts)
    | _ => none

/-! ## Properties -/

/-! ### The monad of calls -/

section Basics

variable {σ α β : Type}

theorem bind_apply (m : M σ α) (f : α → M σ β) (w : World σ) :
    (m >>= f) w = M.bind m f w := rfl

theorem pure_apply (a : α) (w : World σ) : (pure a : M σ α) w = (Res.ok a, w) := rfl

theorem ask_bind (g : σ → α × σ) (c : α → Call) (f : α → M σ β) (w : World σ) :
    (ask g c >>= f) w = f (g w.sys).1 { sys := (g w.sys).2, trace := w.trace ++ [c (g w.sys).1] } :=
  rfl

theorem ask_apply (g : σ → α × σ) (c : α → Call) (w : World σ) :
    ask g c w = (Res.ok (g w.sys).1, { sys := (g w.sys).2, trace := w.trace ++ [c (g w.sys).1] }) :=
  rfl

theorem store_length (mem : List Byte) (out : Nat) (bs : List Byte)
    (h : out + bs.length ≤ mem.length) : (store mem out bs).length = mem.length := by
  simp [store]; omega

theorem store_store (mem : List Byte) (out : Nat) (bs cs : List Byte)
    (h : out + bs.length ≤ mem.length) :
    store (store mem out bs) (out + bs.length) cs = store mem out (bs ++ cs) := by
  have hA : (mem.take out ++ bs).length = out + bs.length := by simp; omega
  unfold store
  rw [List.take_left' hA]
  have hd : out + bs.length + cs.length = (mem.take out ++ bs).length + cs.length := by rw [hA]
  rw [hd, List.drop_append, List.drop_drop]
  simp [List.append_assoc, Nat.add_assoc, Nat.add_comm, Nat.add_left_comm]

theorem store_nil (mem : List Byte) (out : Nat) : store mem out [] = mem := by
  simp [store]

theorem store_window (mem : List Byte) (out : Nat) (bs : List Byte) (h : out ≤ mem.length) :
    ((store mem out bs).drop out).take bs.length = bs := by
  have hA : (mem.take out).length = out := by simp; omega
  unfold store
  rw [List.append_assoc, List.drop_left' hA, List.take_left' rfl]

end Basics

theorem invoke_bind {σ α β : Type} (g : σ → Except Exn α × σ) (c : Option α → Call)
    (f : α → M σ β) (w : World σ) :
    (invoke g c >>= f) w =
      match (g w.sys).1 with
      | Except.ok a => f a { sys := (g w.sys).2, trace := w.trace ++ [c (some a)] }
      | Except.error e =>
        (Res.throw e, { sys := (g w.sys).2, trace := w.trace ++ [c none] }) := by
  simp only [bind_apply, M.bind, invoke]
  rcases g w.sys with ⟨r, s⟩
  cases r <;> rfl

theorem invoke_apply {σ α : Type} (g : σ → Except Exn α × σ) (c : Option α → Call)
    (w : World σ) :
    invoke g c w =
      match (g w.sys).1 with
      | Except.ok a => (Res.ok a, { sys := (g w.sys).2, trace := w.trace ++ [c (some a)] })
      | Except.error e =>
        (Res.throw e, { sys := (g w.sys).2, trace := w.trace ++ [c none] }) := by
  simp only [invoke]
  rcases g w.sys with ⟨r, s⟩
  cases r <;> rfl

section Framing

variable {σ α β : Type}

theorem bind_ok (m : M σ α) (f : α → M σ β) (w : World σ) (b : β) (w1 : World σ) :
    (m >>= f) w = (Res.ok b, w1) ↔ ∃ a w0, m w = (Res.ok a, w0) ∧ f a w0 = (Res.ok b, w1) := by
  simp only [bind_apply, M.bind]
  constructor
  · intro h
    split at h
    · rename_i a w0 hm
      exact ⟨a, w0, hm, h⟩
    all_goals simp at h
  · rintro ⟨a, w0, hm, hf⟩
    rw [hm]
    exact hf

theorem pure_ok (a b : α) (w w1 : World σ) :
    (pure a : M σ α) w = (Res.ok b, w1) ↔ b = a ∧ w1 = w := by
  simp only [pure_apply, Prod.mk.injEq, Res.ok.injEq]
  constructor <;> rintro ⟨h1, h2⟩ <;> exact ⟨h1.symm, h2.symm⟩

theorem invoke_ok (g : σ → Except Exn α × σ) (c : Option α → Call) (w : World σ) (a : α)
    (w1 : World σ) (h : invoke g c w = (Res.ok a, w1)) :
    w1.trace = w.trace ++ [c (some a)] := by
  rw [invoke_apply] at h
  cases hg : (g w.sys).1 with
  | ok x =>
    simp only [hg, Prod.mk.injEq, Res.ok.injEq] at h
    obtain ⟨rfl, rfl⟩ := h
    rfl
  | error e => simp [hg] at h

end Framing

theorem bind_cases {σ α β : Type} (m : M σ α) (f : α → M σ β) (w : World σ) (res : Res β)
    (w1 : World σ) (h : (m >>= f) w = (res, w1)) :
    (∃ a w0, m w = (Res.ok a, w0) ∧ f a w0 = (res, w1)) ∨
      ((∀ b, res ≠ Res.ok b) ∧ ∃ r, m w = (r, w1)) := by
  simp only [bind_apply, M.bind] at h
  split at h
  · rename_i a w0 hm
    exact Or.inl ⟨a, w0, hm, h⟩
  all_goals
    rename_i hm
    simp only [Prod.mk.injEq] at h
    obtain ⟨rfl, rfl⟩ := h
    exact Or.inr (And.intro (fun b hb => by cases hb) (Exists.intro _ hm))

theorem bind_throw {σ α β : Type} (m : M σ α) (f : α → M σ β) (w : World σ) (e : Exn)
    (w1 : World σ) (h : (m >>= f) w = (Res.throw e, w1)) :
    m w = (Res.throw e, w1) ∨ ∃ a w0, m w = (Res.ok a, w0) ∧ f a w0 = (Res.throw e, w1) := by
  simp only [bind_apply, M.bind] at h
  split at h
  · rename_i a w0 hm
    exact Or.inr ⟨a, w0, hm, h⟩
  · rename_i e0 w0 hm
    simp only [Prod.mk.injEq, Res.throw.injEq] at h
    obtain ⟨rfl, rfl⟩ := h
    exact Or.inl hm
  all_goals simp at h

theorem invoke_bind_cases {σ α β : Type} (g : σ → Except Exn α × σ) (c : Option α → Call)
    (f : α → M σ β) (w : World σ) (res : Res β) (w1 : World σ)
    (h : (invoke g c >>= f) w = (res, w1)) :
    (∃ a w0, w0.trace = w.trace ++ [c (some a)] ∧ f a w0 = (res, w1)) ∨
      ((∀ b, res ≠ Res.ok b) ∧ w1.trace = w.trace ++ [c none]) := by
  rw [invoke_bind] at h
  split at h
  · rename_i a _
    exact Or.inl ⟨a, _, rfl, h⟩
  · simp only [Prod.mk.injEq] at h
    obtain ⟨rfl, rfl⟩ := h
    exact Or.inr ⟨fun b hb => (by cases hb), rfl⟩

section Emitting

variable {σ α β : Type} {p : Call → Prop}

theorem emits_pure (a : α) : Emits p (pure a : M σ α) := by
  intro w res w1 h
  simp only [pure_apply, Prod.mk.injEq] at h
  exact ⟨[], by rw [← h.2]; simp, by simp⟩

theorem emits_raise (e : Exn) : Emits p (raise e : M σ α) := by
  intro w res w1 h
  simp only [raise, Prod.mk.injEq] at h
  exact ⟨[], by rw [← h.2]; simp, by simp⟩

theorem emits_halt (r : Res α) : Emits p (halt r : M σ α) := by
  intro w res w1 h
  simp only [halt, Prod.mk.injEq] at h
  exact ⟨[], by rw [← h.2]; simp, by simp⟩

theorem emits_emit (c : Call) (hc : p c) : Emits p (emit c : M σ Unit) := by
  intro w res w1 h
  simp only [emit, Prod.mk.injEq] at h
  exact ⟨[c], by rw [← h.2], by simpa using hc⟩

theorem emits_ask (g : σ → α × σ) (c : α → Call) (hc : ∀ a, p (c a)) :
    Emits p (ask g c) := by
  intro w res w1 h
  simp only [ask, Prod.mk.injEq] at h
  exact ⟨[c (g w.sys).1], by rw [← h.2], by simpa using hc _⟩

theorem emits_invoke (g : σ → Except Exn α × σ) (c : Option α → Call) (hc : ∀ o, p (c o)) :
    Emits p (invoke g c) := by
  intro w res w1 h
  rw [invoke_apply] at h
  split at h
  · rename_i a _
    simp only [Prod.mk.injEq] at h
    exact ⟨[c (some a)], by rw [← h.2], by simpa using hc _⟩
  · simp only [Prod.mk.injEq] at h
    exact ⟨[c none], by rw [← h.2], by simpa using hc _⟩

theorem emits_bind (m : M σ α) (f : α → M σ β) (hm : Emits p m) (hf : ∀ a, Emits p (f a)) :
    Emits p (m >>= f) := by
  intro w res w1 h
  simp only [bind_apply, M.bind] at h
  split at h
  · rename_i a w0 hm0
    obtain ⟨s1, ht1, hp1⟩ := hm w _ _ hm0
    obtain ⟨s2, ht2, hp2⟩ := hf a w0 _ _ h
    refine ⟨s1 ++ s2, by rw [ht2, ht1, List.append_assoc], ?_⟩
    intro c hc
    rcases List.mem_append.mp hc with hc | hc
    · exact hp1 c hc
    · exact hp2 c hc
  all_goals
    rename_i hm0
    simp only [Prod.mk.injEq] at h
    obtain ⟨s1, ht1, hp1⟩ := hm w _ _ hm0
    exact ⟨s1, by rw [← h.2]; exact ht1, hp1⟩

theorem emits_try_catch (m : M σ α) (f : Exn → M σ α) (hm : Emits p m)
    (hf : ∀ e, Emits p (f e)) : Emits p (try_catch m f) := by
  intro w res w1 h
  simp only [try_catch] at h
  split at h
  · rename_i e w0 hm0
    obtain ⟨s1, ht1, hp1⟩ := hm w _ _ hm0
    obtain ⟨s2, ht2, hp2⟩ := hf e w0 _ _ h
    refine ⟨s1 ++ s2, by rw [ht2, ht1, List.append_assoc], ?_⟩
    intro c hc
    rcases List.mem_append.mp hc with hc | hc
    · exact hp1 c hc
    · exact hp2 c hc
  · exact hm w _ _ h

theorem emits_mono {q : Call → Prop} (m : M σ α) (hm : Emits p m) (hpq : ∀ c, p c → q c) :
    Emits q m := by
  intro w res w1 h
  obtain ⟨s, ht, hp⟩ := hm w res w1 h
  exact ⟨s, ht, fun c hc => hpq c (hp c hc)⟩

end Emitting

theorem filterMap_none {β : Type} (f : Call → Option β) (l : List Call)
    (h : ∀ c ∈ l, f c = none) : l.filterMap f = [] := by
  induction l with
  | nil => rfl
  | cons a t ih =>
    rw [List.filterMap_cons, h a (by simp)]
    exact ih (fun c hc => h c (by simp [hc]))

/-! ### The channel reader: `read_exactly` and `read_latest` -/

theorem read_exactly_succ {σ : Type} (env : Env σ) (fd : Int) (fuel : Nat) (mem : List Byte)
    (out size : Nat) (w : World σ) :
    read_exactly env fd (fuel + 1) mem out size w =
      if (env.exiting w.sys).1 = true ∨ size = 0 then
        (Res.ok { mem := mem, out := out, size := size },
          { sys := (env.exiting w.sys).2, trace := w.trace ++ [Call.exiting (env.exiting w.sys).1] })
      else if (env.poll fd 1 (env.exiting w.sys).2).1 < 0 then
        (Res.throw Exn.poll_failed,
          { sys := (env.poll fd 1 (env.exiting w.sys).2).2,
            trace := w.trace ++ [Call.exiting false,
              Call.poll fd 1 (env.poll fd 1 (env.exiting w.sys).2).1] })
      else if (env.poll fd 1 (env.exiting w.sys).2).1 = 1 then
        match (env.read fd size (env.poll fd 1 (env.exiting w.sys).2).2).1 with
        | none =>
          (Res.throw Exn.read_failed,
            { sys := (env.read fd size (env.poll fd 1 (env.exiting w.sys).2).2).2,
              trace := w.trace ++ [Call.exiting false, Call.poll fd 1 1,
                Call.read fd out size none] })
        | some bs =>
          read_exactly env fd fuel (store mem out (bs.take size)) (out + (bs.take size).length)
            (size - (bs.take size).length)
            { sys := (env.read fd size (env.poll fd 1 (env.exiting w.sys).2).2).2,
              trace := w.trace ++ [Call.exiting false, Call.poll fd 1 1,
                Call.read fd out size (some (bs.take size))] }
      else
        read_exactly env fd fuel mem out size
          { sys := (env.poll fd 1 (env.exiting w.sys).2).2,
            trace := w.trace ++ [Call.exiting false,
              Call.poll fd 1 (env.poll fd 1 (env.exiting w.sys).2).1] } := by
  rw [read_exactly]
  simp only [ask_bind]
  by_cases hx : (env.exiting w.sys).1 = true
  · simp [hx, pure_apply]
  · simp only [Bool.not_eq_true] at hx
    by_cases hs : size = 0
    · simp [hx, hs, pure_apply]
    · by_cases hp : (env.poll fd 1 (env.exiting w.sys).2).1 < 0
      · simp [hx, hs, hp, raise, ask_bind]
      · by_cases h1 : (env.poll fd 1 (env.exiting w.sys).2).1 = 1
        · cases hr : (env.read fd size (env.poll fd 1 (env.exiting w.sys).2).2).1 <;>
            simp [hx, hs, raise, h1, hr, sys_read, ask_bind]
        · simp [hx, hs, hp, h1, ask_bind]

theorem read_exactly_spec {σ : Type} (env : Env σ) (fd : Int) :
    ∀ (fuel : Nat) (mem : List Byte) (out size : Nat) (w : World σ) (r : ReadState)
      (w1 : World σ), out + size ≤ mem.length →
      read_exactly env fd fuel mem out size w = (Res.ok r, w1) →
      ∃ pre b, w1.trace = w.trace ++ (pre ++ [Call.exiting b]) ∧
        Call.exiting true ∉ pre ∧ chained fd out size pre ∧
        r.out = out + (consumed pre).length ∧ (consumed pre).length + r.size = size ∧
        r.mem = store mem out (consumed pre) ∧ (b = false → r.size = 0) := by
  intro fuel
  induction fuel with
  | zero =>
    intro mem out size w r w1 _ h
    simp [read_exactly, halt] at h
  | succ fuel ih =>
    intro mem out size w r w1 hbuf h
    rw [read_exactly_succ] at h
    split at h
    · rename_i hc
      simp only [Prod.mk.injEq, Res.ok.injEq] at h
      obtain ⟨hr, hw⟩ := h
      subst hr hw
      refine ⟨[], (env.exiting w.sys).1, by simp, by simp, by simp [chained], by simp [consumed],
        by simp [consumed], by simp [consumed, store_nil], ?_⟩
      intro hb
      rcases hc with hc | hc
      · rw [hc] at hb; cases hb
      · exact hc
    · split at h
      · simp at h
      · split at h
        · split at h
          · simp at h
          · rename_i bs hbs
            have hlen : (bs.take size).length ≤ size := by simp
            have hstore := store_length mem out (bs.take size) (by omega)
            obtain ⟨pre, b, htr, hno, hch, hout, hsz, hmem, hb⟩ :=
              ih _ _ _ _ r w1 (by rw [hstore]; omega) h
            refine ⟨[Call.exiting false, Call.poll fd 1 1,
              Call.read fd out size (some (bs.take size))] ++ pre, b, ?_, ?_, ?_, ?_, ?_, ?_, hb⟩
            · rw [htr]; simp
            · simpa using hno
            · simpa [chained] using hch
            · rw [hout]; simp [consumed]; omega
            · have hc : consumed ([Call.exiting false, Call.poll fd 1 1,
                  Call.read fd out size (some (bs.take size))] ++ pre)
                  = bs.take size ++ consumed pre := by simp [consumed]
              rw [hc, List.length_append]
              omega
            · rw [hmem, store_store _ _ _ _ (by omega)]
              simp [consumed]
        · obtain ⟨pre, b, htr, hno, hch, hout, hsz, hmem, hb⟩ := ih _ _ _ _ r w1 hbuf h
          refine ⟨[Call.exiting false, Call.poll fd 1 (env.poll fd 1 (env.exiting w.sys).2).1]
            ++ pre, b, ?_, ?_, ?_, ?_, ?_, ?_, hb⟩
          · rw [htr]; simp
          · simpa using hno
          · simpa [chained] using hch
          · rw [hout]; simp [consumed]
          · simpa [consumed] using hsz
          · rw [hmem]; simp [consumed]

theorem read_exactly_emits {σ : Type} (env : Env σ) (fd : Int) (fuel : Nat) :
    ∀ (mem : List Byte) (out size : Nat),
      Emits (fun c => c.is_channel = true) (read_exactly env fd fuel mem out size) := by
  induction fuel with
  | zero => intro mem out size; exact emits_halt _
  | succ fuel ih =>
    intro mem out size
    rw [read_exactly]
    refine emits_bind _ _ (emits_ask _ _ (fun _ => rfl)) (fun exiting => ?_)
    split
    · refine emits_bind _ _ (emits_ask _ _ (fun _ => rfl)) (fun count => ?_)
      split
      · exact emits_raise _
      · split
        · refine emits_bind _ _ (emits_ask _ _ (fun _ => rfl)) (fun s => ?_)
          split
          · exact emits_raise _
          · exact ih _ _ _
        · exact ih _ _ _
    · exact emits_pure _

/-- C1: whenever `read_exactly` returns, the calls it made end with a load of the flag,
every read before it stores where the previous one ended and asks for no more than
what is still missing; if that last load saw `false`, exactly `size` bytes were
delivered and the buffer holds them in order from `out` on; and fewer than `size`
bytes were delivered only if that load saw `true`. -/
theorem read_exactly_complete {σ : Type} (env : Env σ) (fd : Int) (fuel : Nat)
    (mem : List Byte) (out size : Nat) (w : World σ) (r : ReadState) (w1 : World σ)
    (hbuf : out + size ≤ mem.length)
    (hret : read_exactly env fd fuel mem out size w = (Res.ok r, w1)) :
    ∃ seg b, w1.trace = w.trace ++ seg ++ [Call.exiting b] ∧
      chained fd out size seg ∧
      (b = false → (consumed seg).length = size ∧ (r.mem.drop out).take size = consumed seg) ∧
      ((consumed seg).length < size → b = true) := by
  obtain ⟨pre, b, htr, _, hch, _, hsz, hmem, hb⟩ :=
    read_exactly_spec env fd fuel mem out size w r w1 hbuf hret
  refine ⟨pre, b, by rw [htr, List.append_assoc], hch, ?_, ?_⟩
  · intro hf
    have h0 := hb hf
    have hlen : (consumed pre).length = size := by omega
    refine ⟨hlen, ?_⟩
    rw [hmem, ← hlen]
    exact store_window mem out (consumed pre) (by omega)
  · intro hlt
    cases b with
    | true => rfl
    | false => have h0 := hb rfl; omega

/-- C1, an instance: four bytes asked for, delivered as two and then three offered
(cut to the two still missing), with a timed-out `poll` in between. -/
theorem read_exactly_complete_witness :
    ∃ seg b,
      [Call.exiting false, Call.poll 7 1 1, Call.read 7 0 4 (some [1, 2]), Call.exiting false,
        Call.poll 7 1 0, Call.exiting false, Call.poll 7 1 1, Call.read 7 2 2 (some [3, 4]),
        Call.exiting false] = [] ++ seg ++ [Call.exiting b] ∧
      chained 7 0 4 seg ∧
      (b = false → (consumed seg).length = 4 ∧ (([1, 2, 3, 4] : List Byte).drop 0).take 4 = consumed seg) ∧
      ((consumed seg).length < 4 → b = true) :=
  read_exactly_complete scripted 7 10 [0, 0, 0, 0] 0 4
    { sys := [Answer.flag false, Answer.ready 1, Answer.data (some [1, 2]), Answer.flag false,
        Answer.ready 0, Answer.flag false, Answer.ready 1, Answer.data (some [3, 4, 5]),
        Answer.flag false],
      trace := [] }
    { mem := [1, 2, 3, 4], out := 4, size := 0 }
    { sys := [],
      trace := [Call.exiting false, Call.poll 7 1 1, Call.read 7 0 4 (some [1, 2]),
        Call.exiting false, Call.poll 7 1 0, Call.exiting false, Call.poll 7 1 1,
        Call.read 7 2 2 (some [3, 4]), Call.exiting false] }
    (by decide) (by rfl)

/-- C8: at end of stream (every `poll` reports the descriptor ready, every `read`
returns 0, the flag is never set) `read_exactly`, asked for at least one byte, is still
running whatever the fuel: it neither raises nor returns. -/
theorem read_exactly_spins_at_end_of_stream (fuel : Nat) (mem : List Byte) (out size : Nat)
    (w : World Unit) :
    (read_exactly hung_up 7 fuel mem out (size + 1) w).1 = Res.spin := by
  induction fuel generalizing w with
  | zero => rfl
  | succ fuel ih =>
    rw [read_exactly_succ]
    simp only [hung_up, Env.idle, Bool.false_eq_true, Nat.add_one_ne_zero, or_self, ↓reduceIte,
      Int.reduceLT, List.take_nil, List.length_nil, Nat.add_zero, Nat.sub_zero, store_nil]
    exact ih _

theorem read_exactly_quiet {σ : Type} (env : Env σ) (fd : Int) (buf : σ → List Byte)
    (hq : Quiet env fd buf) :
    ∀ (fuel size : Nat) (mem : List Byte) (out : Nat) (w : World σ) (record rest : List Byte),
      size < fuel → record.length = size → buf w.sys = record ++ rest →
      out + size ≤ mem.length →
      ∃ w1, read_exactly env fd fuel mem out size w =
          (Res.ok { mem := store mem out record, out := out + size, size := 0 }, w1) ∧
        buf w1.sys = rest := by
  obtain ⟨hx, hp, hr⟩ := hq
  intro fuel
  induction fuel with
  | zero => intro size mem out w record rest h; omega
  | succ fuel ih =>
    intro size mem out w record rest hfuel hlen hbuf hmem
    rw [read_exactly_succ]
    have hx1 := (hx w.sys).1
    have hx2 := (hx w.sys).2
    by_cases hs : size = 0
    · subst hs
      have : record = [] := List.length_eq_zero.mp hlen
      subst this
      simp only [hx1, or_true, ↓reduceIte, store_nil, Nat.add_zero]
      exact ⟨_, rfl, by simpa [hx2] using hbuf⟩
    · have hne : buf (env.exiting w.sys).2 ≠ [] := by
        rw [hx2, hbuf]
        intro h
        have h0 := congrArg List.length h
        rw [List.length_append, List.length_nil] at h0
        omega
      have hp1 := (hp 1 (env.exiting w.sys).2).1
      have hp2 := (hp 1 (env.exiting w.sys).2).2
      rw [if_neg hne] at hp1
      obtain ⟨bs, hbs, hbne, hble, hsplit⟩ :=
        hr size (env.poll fd 1 (env.exiting w.sys).2).2 (by omega) (by rw [hp2]; exact hne)
      have hpos : 0 < bs.length := List.length_pos.mpr hbne
      simp only [hx1, hs, or_self, ↓reduceIte, hp1, Bool.false_eq_true]
      simp only [Int.reduceLT, ↓reduceIte, hbs, List.take_of_length_le hble]
      rw [hp2, hx2, hbuf] at hsplit
      have hrec : record = bs ++ record.drop bs.length := by
        have h1 := congrArg (List.take bs.length) hsplit
        rw [List.take_left' rfl, List.take_append_of_le_length (by omega)] at h1
        conv_lhs => rw [← List.take_append_drop bs.length record]
        rw [h1]
      have hrest : buf (env.read fd size (env.poll fd 1 (env.exiting w.sys).2).2).2
          = record.drop bs.length ++ rest := by
        have h1 := congrArg (List.drop bs.length) hsplit
        rw [List.drop_left' rfl, List.drop_append_of_le_length (by omega)] at h1
        exact h1.symm
      obtain ⟨w1, hrun, hfin⟩ := ih (size - bs.length) (store mem out bs) (out + bs.length)
        { sys := (env.read fd size (env.poll fd 1 (env.exiting w.sys).2).2).2,
          trace := w.trace ++ [Call.exiting false, Call.poll fd 1 1,
            Call.read fd out size (some bs)] }
        (record.drop bs.length) rest (by omega) (by simp; omega) hrest
        (by rw [store_length _ _ _ (by omega)]; omega)
      refine ⟨w1, ?_, hfin⟩
      rw [hrun, store_store _ _ _ _ (by omega), ← hrec]
      have : out + bs.length + (size - bs.length) = out + size := by omega
      rw [this]

theorem read_latest_loop_succ {σ : Type} (env : Env σ) (fd : Int) (inner out size fuel : Nat)
    (mem : List Byte) (w : World σ) :
    read_latest_loop env fd inner out size (fuel + 1) mem w =
      if (env.exiting w.sys).1 = true then
        (Res.ok mem, { sys := (env.exiting w.sys).2, trace := w.trace ++ [Call.exiting true] })
      else if (env.poll fd 0 (env.exiting w.sys).2).1 = 0 then
        (Res.ok mem,
          { sys := (env.poll fd 0 (env.exiting w.sys).2).2,
            trace := w.trace ++ [Call.exiting false, Call.poll fd 0 0] })
      else
        M.bind (read_exactly env fd inner mem out size)
          (fun r => read_latest_loop env fd inner out size fuel r.mem)
          { sys := (env.poll fd 0 (env.exiting w.sys).2).2,
            trace := w.trace ++ [Call.exiting false,
              Call.poll fd 0 (env.poll fd 0 (env.exiting w.sys).2).1] } := by
  rw [read_latest_loop]
  simp only [ask_bind]
  by_cases hx : (env.exiting w.sys).1 = true
  · simp [hx, pure_apply]
  · simp only [Bool.not_eq_true] at hx
    by_cases hp : (env.poll fd 0 (env.exiting w.sys).2).1 = 0
    · simp [hx, hp, pure_apply, ask_bind]
    · simp [hx, hp, ask_bind]
      rfl

theorem read_latest_loop_quiet {σ : Type} (env : Env σ) (fd : Int) (buf : σ → List Byte)
    (hq : Quiet env fd buf) (inner out size : Nat) (hsize : 0 < size) (hinner : size < inner) :
    ∀ (records : List (List Byte)) (fuel : Nat) (mem : List Byte) (w : World σ),
      (∀ r ∈ records, r.length = size) → records.length < fuel →
      buf w.sys = records.flatten → out + size ≤ mem.length →
      ∃ w1, read_latest_loop env fd inner out size fuel mem w =
          (Res.ok (records.foldl (fun m r => store m out r) mem), w1) ∧
        buf w1.sys = [] := by
  intro records
  induction records with
  | nil =>
    intro fuel mem w _ hfuel hbuf _
    obtain ⟨fuel, rfl⟩ : ∃ k, fuel = k + 1 := ⟨fuel - 1, by simp at hfuel; omega⟩
    rw [read_latest_loop_succ]
    have hx := hq.1 w.sys
    have hp := hq.2.1 0 (env.exiting w.sys).2
    simp only [List.flatten_nil] at hbuf
    rw [hx.2, hbuf] at hp
    simp only [hx.1, Bool.false_eq_true, ↓reduceIte, hp.1, List.foldl_nil]
    exact ⟨_, rfl, hp.2⟩
  | cons r rs ih =>
    intro fuel mem w hall hfuel hbuf hmem
    obtain ⟨fuel, rfl⟩ : ∃ k, fuel = k + 1 := ⟨fuel - 1, by simp at hfuel; omega⟩
    rw [read_latest_loop_succ]
    have hx := hq.1 w.sys
    have hp := hq.2.1 0 (env.exiting w.sys).2
    have hr : r.length = size := hall r (by simp)
    simp only [List.flatten_cons] at hbuf
    have hne : r ++ rs.flatten ≠ [] := by
      intro h
      have h0 := congrArg List.length h
      rw [List.length_append, List.length_nil] at h0
      omega
    rw [hx.2, hbuf, if_neg hne] at hp
    simp only [hx.1, Bool.false_eq_true, ↓reduceIte, hp.1, one_ne_zero]
    obtain ⟨w1, hrun, hfin⟩ := read_exactly_quiet env fd buf hq inner size mem out
      { sys := (env.poll fd 0 (env.exiting w.sys).2).2,
        trace := w.trace ++ [Call.exiting false, Call.poll fd 0 1] }
      r rs.flatten hinner hr hp.2 hmem
    obtain ⟨w2, hloop, hfin2⟩ := ih fuel (store mem out r) w1
      (fun x hx => hall x (by simp [hx])) (by simp at hfuel; omega) hfin
      (by rw [store_length _ _ _ (by omega)]; exact hmem)
    refine ⟨w2, ?_, hfin2⟩
    simp only [M.bind, hrun, List.foldl_cons]
    exact hloop

theorem foldl_store_length (out size : Nat) :
    ∀ (records : List (List Byte)) (mem : List Byte),
      (∀ r ∈ records, r.length = size) → out + size ≤ mem.length →
      (records.foldl (fun m r => store m out r) mem).length = mem.length := by
  intro records
  induction records with
  | nil => intro mem _ _; rfl
  | cons r rs ih =>
    intro mem hall hmem
    have hr : r.length = size := hall r (by simp)
    have hl := store_length mem out r (by omega)
    rw [List.foldl_cons, ih _ (fun x hx => hall x (by simp [hx])) (by omega), hl]

/-- C2: on a quiet connection that holds `N ≥ 1` complete records of `size > 0` bytes when
`read_latest` is called, `read_latest` (given fuel beyond `size` and `N`) returns
normally, leaves nothing queued, and the `size` bytes of the buffer from `out` on are
the last of the records. -/
theorem read_latest_last {σ : Type} (env : Env σ) (fd : Int) (buf : σ → List Byte)
    (hq : Quiet env fd buf) (size : Nat) (hsize : 0 < size)
    (earlier : List (List Byte)) (last : List Byte)
    (hall : ∀ r ∈ earlier ++ [last], r.length = size)
    (w : World σ) (hbuf : buf w.sys = (earlier ++ [last]).flatten)
    (mem : List Byte) (out : Nat) (hmem : out + size ≤ mem.length)
    (fuel : Nat) (hfuel : size < fuel) (hcount : (earlier ++ [last]).length < fuel) :
    ∃ res w1, read_latest env fd fuel mem out size w = (Res.ok res, w1) ∧
      buf w1.sys = [] ∧ res.length = mem.length ∧ (res.drop out).take size = last ∧
      (out = 0 → mem.length = size → res = last) := by
  suffices hmain : ∃ res w1, read_latest env fd fuel mem out size w = (Res.ok res, w1) ∧
      buf w1.sys = [] ∧ res.length = mem.length ∧ (res.drop out).take size = last by
    obtain ⟨res, w1, h1, h2, h3, h4⟩ := hmain
    refine ⟨res, w1, h1, h2, h3, h4, ?_⟩
    intro ho hm
    subst ho
    rw [List.drop_zero, List.take_of_length_le (by omega)] at h4
    exact h4
  cases earlier with
  | nil =>
    have hl : last.length = size := hall last (by simp)
    obtain ⟨w1, hrun, hfin⟩ := read_exactly_quiet env fd buf hq fuel size mem out w last []
      hfuel hl (by simpa using hbuf) hmem
    obtain ⟨w2, hloop, hfin2⟩ := read_latest_loop_quiet env fd buf hq fuel out size hsize hfuel
      [] fuel (store mem out last) w1 (by simp) (by simp; omega) (by simpa using hfin)
      (by rw [store_length _ _ _ (by omega)]; exact hmem)
    refine ⟨store mem out last, w2, ?_, hfin2, store_length _ _ _ (by omega), ?_⟩
    · simp only [read_latest, bind_apply, M.bind, hrun]
      exact hloop
    · rw [← hl]
      exact store_window mem out last (by omega)
  | cons e es =>
    have he : e.length = size := hall e (by simp)
    have hl : last.length = size := hall last (by simp)
    have hes : ∀ r ∈ es, r.length = size := fun r hr => hall r (by simp [hr])
    obtain ⟨w1, hrun, hfin⟩ := read_exactly_quiet env fd buf hq fuel size mem out w e
      (es ++ [last]).flatten hfuel he (by simpa using hbuf) hmem
    have hm1 : (store mem out e).length = mem.length := store_length _ _ _ (by omega)
    obtain ⟨w2, hloop, hfin2⟩ := read_latest_loop_quiet env fd buf hq fuel out size hsize hfuel
      (es ++ [last]) fuel (store mem out e) w1 (fun r hr => hall r (by simp at hr ⊢; tauto))
      (by simp at hcount ⊢; omega) hfin (by rw [hm1]; exact hmem)
    have hm2 : (es.foldl (fun m r => store m out r) (store mem out e)).length = mem.length := by
      rw [foldl_store_length out size es _ hes (by rw [hm1]; exact hmem), hm1]
    rw [List.foldl_append, List.foldl_cons, List.foldl_nil] at hloop
    refine ⟨store (es.foldl (fun m r => store m out r) (store mem out e)) out last, w2, ?_,
      hfin2, ?_, ?_⟩
    · simp only [read_latest, bind_apply, M.bind, hrun]
      exact hloop
    · rw [store_length _ _ _ (by omega), hm2]
    · rw [← hl]
      exact store_window _ out last (by omega)

/-- C2, an instance: three records of three bytes are queued and each `read` delivers
at most two bytes; the buffer ends as the third record and the queue is empty. -/
theorem read_latest_last_witness :
    ∃ res w1, read_latest (queued 2) 7 10 [0, 0, 0] 0 3
        { sys := [1, 2, 3, 4, 5, 6, 7, 8, 9], trace := [] } = (Res.ok res, w1) ∧
      id w1.sys = [] ∧ res.length = ([0, 0, 0] : List Byte).length ∧
      (res.drop 0).take 3 = [7, 8, 9] ∧
      (0 = 0 → ([0, 0, 0] : List Byte).length = 3 → res = [7, 8, 9]) :=
  read_latest_last (queued 2) 7 id
    ⟨fun _ => ⟨rfl, rfl⟩, fun _ _ => ⟨rfl, rfl⟩, fun n s hn hs =>
      ⟨s.take (min n 2), rfl, by
        cases s with
        | nil => exact absurd rfl hs
        | cons a t =>
          have h : min n 2 = (min n 2 - 1) + 1 := by omega
          rw [h]; simp,
        by simp, by simp [queued]⟩⟩
    3 (by decide) [[1, 2, 3], [4, 5, 6]] [7, 8, 9] (by decide)
    { sys := [1, 2, 3, 4, 5, 6, 7, 8, 9], trace := [] } rfl [0, 0, 0] 0 (by decide) 10
    (by decide) (by decide)

theorem read_latest_emits {σ : Type} (env : Env σ) (fd : Int) (fuel : Nat) (mem : List Byte)
    (out size : Nat) :
    Emits (fun c => c.is_channel = true) (read_latest env fd fuel mem out size) := by
  have hloop : ∀ (n : Nat) (m : List Byte),
      Emits (fun c => c.is_channel = true) (read_latest_loop env fd fuel out size n m) := by
    intro n
    induction n with
    | zero => intro m; exact emits_halt _
    | succ n ih =>
      intro m
      rw [read_latest_loop]
      refine emits_bind _ _ (emits_ask _ _ (fun _ => rfl)) (fun exiting => ?_)
      split
      · refine emits_bind _ _ (emits_ask _ _ (fun _ => rfl)) (fun count => ?_)
        split
        · exact emits_pure _
        · exact emits_bind _ _ (read_exactly_emits env fd fuel _ _ _) (fun r => ih _)
      · exact emits_pure _
  exact emits_bind _ _ (read_exactly_emits env fd fuel _ _ _) (fun r => hloop _ _)

/-! ### One iteration of the main loop -/

theorem Run_bitrate_emits {σ : Type} (env : Env σ) :
    Emits (fun c => c.is_bitrate = true) (Run_bitrate env) := by
  unfold Run_bitrate
  refine emits_bind _ _ (emits_invoke _ _ (fun _ => rfl)) (fun updated => ?_)
  split
  · exact emits_bind _ _ (emits_invoke _ _ (fun _ => rfl))
      (fun b => emits_invoke _ _ (fun _ => rfl))
  · exact emits_pure _

theorem Run_bitrate_ok {σ : Type} (env : Env σ) (w : World σ) (u : Unit) (w1 : World σ)
    (h : Run_bitrate env w = (Res.ok u, w1)) :
    w1.trace = w.trace ++ [Call.CheckBitrateUpdated (some false)] ∨
      ∃ b, w1.trace = w.trace ++ [Call.CheckBitrateUpdated (some true), Call.GetBitrate (some b),
        Call.SetBitrate (b * 1000000)] := by
  unfold Run_bitrate at h
  simp only [bind_ok] at h
  obtain ⟨updated, v1, h1, h⟩ := h
  have t1 := invoke_ok _ _ _ _ _ h1
  cases updated with
  | false =>
    simp only [Bool.false_eq_true, ↓reduceIte, pure_ok] at h
    left
    rw [h.2, t1]
  | true =>
    simp only [↓reduceIte, bind_ok] at h
    obtain ⟨b, v2, h2, h3⟩ := h
    have t2 := invoke_ok _ _ _ _ _ h2
    have t3 := invoke_ok _ _ _ _ _ h3
    right
    exact ⟨b, by rw [t3, t2, t1]; simp⟩

theorem Run_encode_emits {σ : Type} (env : Env σ) (mem : List Byte) (fi : present_packet)
    (ts : Nat) : Emits (fun c => c.is_frame = true) (Run_encode env mem fi ts) := by
  unfold Run_encode
  refine emits_bind _ _ (emits_invoke _ _ (fun _ => rfl)) (fun _ => ?_)
  refine emits_bind _ _ (emits_invoke _ _ (fun _ => rfl)) (fun _ => ?_)
  refine emits_bind _ _ (emits_invoke _ _ (fun _ => rfl)) (fun _ => ?_)
  refine emits_bind _ _ (emits_invoke _ _ (fun _ => rfl)) (fun _ => ?_)
  refine emits_bind _ _ (emits_invoke _ _ (fun _ => rfl)) (fun _ => ?_)
  refine emits_bind _ _ (emits_invoke _ _ (fun _ => rfl)) (fun _ => ?_)
  split
  · exact emits_pure _
  · refine emits_bind _ _ (emits_invoke _ _ (fun _ => rfl)) (fun _ => ?_)
    exact emits_bind _ _ (emits_invoke _ _ (fun _ => rfl)) (fun _ => emits_pure _)

theorem Run_encode_any {σ : Type} (env : Env σ) (mem : List Byte) (fi : present_packet)
    (ts : Nat) (w : World σ) (res : Res Locals) (w1 : World σ)
    (h : Run_encode env mem fi ts w = (res, w1)) :
    ∃ es, w1.trace = w.trace ++ es ∧ EncodeSeg ts fi.image fi.semaphore_value mem res es := by
  unfold Run_encode at h
  rcases invoke_bind_cases _ _ _ _ _ _ h with ⟨_, v1, t1, h⟩ | ⟨hn, t⟩
  swap
  · exact ⟨_, t, Or.inl ⟨hn, Or.inl rfl⟩⟩
  rcases invoke_bind_cases _ _ _ _ _ _ h with ⟨_, v2, t2, h⟩ | ⟨hn, t⟩
  swap
  · refine ⟨_, by rw [t, t1]; simp [push_calls], Or.inl ⟨hn, Or.inr (Or.inl rfl)⟩⟩
  rcases invoke_bind_cases _ _ _ _ _ _ h with ⟨_, v3, t3, h⟩ | ⟨hn, t⟩
  swap
  · refine ⟨_, by rw [t, t2, t1]; simp [push_calls],
      Or.inl ⟨hn, Or.inr (Or.inr (Or.inl rfl))⟩⟩
  rcases invoke_bind_cases _ _ _ _ _ _ h with ⟨idr, v4, t4, h⟩ | ⟨hn, t⟩
  swap
  · refine ⟨_, by rw [t, t3, t2, t1]; simp [push_calls],
      Or.inl ⟨hn, Or.inr (Or.inr (Or.inr rfl))⟩⟩
  have hp : ∀ v : World σ, v.trace = v4.trace ++ [Call.PushFrame ts idr] →
      v.trace = w.trace ++ push_calls ts fi.image fi.semaphore_value idr := by
    intro v hv
    rw [hv, t4, t3, t2, t1]
    simp [push_calls]
  rcases invoke_bind_cases _ _ _ _ _ _ h with ⟨_, v5, t5, h⟩ | ⟨hn, t⟩
  swap
  · exact ⟨_, hp _ t, Or.inr ⟨idr, Or.inl ⟨hn, Or.inl rfl⟩⟩⟩
  have t5 := hp _ t5
  rcases invoke_bind_cases _ _ _ _ _ _ h with ⟨got, v6, t6, h⟩ | ⟨hn, t⟩
  swap
  · refine ⟨_, by rw [t, t5]; simp [push_calls], Or.inr ⟨idr, Or.inl ⟨hn, Or.inr rfl⟩⟩⟩
  obtain ⟨g, data, pts⟩ := got
  cases g with
  | false =>
    simp only [Bool.not_false, ↓reduceIte, pure_apply, Prod.mk.injEq] at h
    obtain ⟨rfl, rfl⟩ := h
    refine ⟨_, by rw [t6, t5]; simp [push_calls],
      Or.inr ⟨idr, Or.inr (Or.inl ⟨data, pts, rfl, rfl⟩)⟩⟩
  | true =>
    simp only [Bool.not_true, Bool.false_eq_true, ↓reduceIte] at h
    rcases invoke_bind_cases _ _ _ _ _ _ h with ⟨_, v7, t7, h⟩ | ⟨hn, t⟩
    swap
    · refine ⟨_, by rw [t, t6, t5]; simp [push_calls],
        Or.inr ⟨idr, Or.inr (Or.inr ⟨data, pts, Or.inl ⟨hn, Or.inl rfl⟩⟩)⟩⟩
    rcases invoke_bind_cases _ _ _ _ _ _ h with ⟨_, v8, t8, h⟩ | ⟨hn, t⟩
    swap
    · refine ⟨_, by rw [t, t7, t6, t5]; simp [push_calls],
        Or.inr ⟨idr, Or.inr (Or.inr ⟨data, pts, Or.inl ⟨hn, Or.inr rfl⟩⟩)⟩⟩
    simp only [pure_apply, Prod.mk.injEq] at h
    obtain ⟨rfl, rfl⟩ := h
    refine ⟨_, by rw [t8, t7, t6, t5]; simp [push_calls],
      Or.inr ⟨idr, Or.inr (Or.inr ⟨data, pts, Or.inr ⟨rfl, rfl⟩⟩)⟩⟩

theorem EncodeSeg_pull (ts image semaphore_value : Nat) (mem : List Byte) (res : Res Locals)
    (es : List Call) (h : EncodeSeg ts image semaphore_value mem res es) :
    (∀ d r, Call.GetEncoded d r ∈ es → d = []) ∧
      (∀ d data pts, Call.GetEncoded d (some (true, data, pts)) ∈ es →
        ∃ idr tail,
          es = push_calls ts image semaphore_value idr ++
            [Call.GetEncoded [] (some (true, data, pts)),
              Call.SendVideo data data.length pts] ++ tail ∧
          (tail = [] ∨ tail = [Call.EncodeOutput]) ∧
          ∀ l1, res = Res.ok l1 → tail = [Call.EncodeOutput] ∧ l1.encoded_data = data) ∧
      ((∀ d data pts, Call.GetEncoded d (some (true, data, pts)) ∉ es) →
        sent es = [] ∧ Call.EncodeOutput ∉ es) := by
  rcases h with ⟨hn, rfl | rfl | rfl | rfl⟩ | ⟨idr, ⟨hn, rfl | rfl⟩ | ⟨d, p, rfl, rfl⟩ |
    ⟨data, pts, ⟨hn, rfl | rfl⟩ | ⟨rfl, rfl⟩⟩⟩
  all_goals refine ⟨?_, ?_, ?_⟩
  all_goals first
    | (intro d r hm; simp [push_calls] at hm; done)
    | (intro d r hm; simp [push_calls] at hm; exact hm.1)
    | (intro d0 data0 pts0 hm; simp [push_calls] at hm; done)
    | (intro _; simp [sent, push_calls]; done)
    | (intro hno; exact absurd (by simp [push_calls]) (hno [] data pts))
    | (intro d0 data0 pts0 hm
       simp only [push_calls, List.mem_append, List.mem_cons, List.mem_singleton,
         Call.GetEncoded.injEq, Option.some.injEq, Prod.mk.injEq, reduceCtorEq, false_or,
         or_false, List.not_mem_nil, true_and, false_and, and_false] at hm
       obtain ⟨_, rfl, rfl⟩ := hm
       first
         | exact ⟨idr, [], rfl, Or.inl rfl, fun l1 hl => absurd hl (hn l1)⟩
         | exact ⟨idr, [Call.EncodeOutput], rfl, Or.inr rfl, fun l1 hl => absurd hl (hn l1)⟩
         | exact ⟨idr, [Call.EncodeOutput], rfl, Or.inr rfl,
             fun l1 hl => by cases hl; exact ⟨rfl, rfl⟩⟩)

theorem Run_frame_unmatched {σ : Type} (env : Env σ) (P : Protocol) (mem : List Byte)
    (l : Locals) (w : World σ) (res : Res Locals) (w1 : World σ)
    (h : Run_frame env P mem l w = (res, w1)) :
    ∃ rest, w1.trace = w.trace ++ rest ∧
      ∀ pose, Call.GetBestPoseMatch pose (some none) ∈ rest →
        res = Res.ok { frame_info := mem, encoded_data := l.encoded_data } ∧
        (rest = [Call.CheckBitrateUpdated (some false), Call.GetBestPoseMatch pose (some none)] ∨
          ∃ b, rest = [Call.CheckBitrateUpdated (some true), Call.GetBitrate (some b),
            Call.SetBitrate (b * 1000000), Call.GetBestPoseMatch pose (some none)]) := by
  unfold Run_frame at h
  rcases bind_cases _ _ _ _ _ h with ⟨u, v1, h1, h2⟩ | ⟨_, r, h1⟩
  · have hb := Run_bitrate_ok env w u v1 h1
    rw [invoke_bind] at h2
    split at h2
    · rename_i pose hpose
      cases pose with
      | none =>
        simp only [pure_apply, Prod.mk.injEq] at h2
        obtain ⟨rfl, rfl⟩ := h2
        rcases hb with hb | ⟨b, hb⟩
        · refine ⟨_, by simp only [hb, List.append_assoc]; rfl, ?_⟩
          intro pose hp
          simp at hp
          subst hp
          exact ⟨rfl, Or.inl rfl⟩
        · refine ⟨_, by simp only [hb, List.append_assoc]; rfl, ?_⟩
          intro pose hp
          simp at hp
          subst hp
          exact ⟨rfl, Or.inr ⟨b, rfl⟩⟩
      | some ts =>
        simp only at h2
        obtain ⟨es, hes, hclass⟩ := Run_encode_emits env mem _ ts _ _ _ h2
        simp only at hes
        have hno : ∀ pose, Call.GetBestPoseMatch pose (some none) ∉ es := by
          intro pose hp
          have := hclass _ hp
          simp [Call.is_frame] at this
        rcases hb with hb | ⟨b, hb⟩
        · refine ⟨_, by rw [hes, hb]; simp only [List.append_assoc]; rfl, ?_⟩
          intro pose hp
          simp at hp
          exact absurd hp (hno pose)
        · refine ⟨_, by rw [hes, hb]; simp only [List.append_assoc]; rfl, ?_⟩
          intro pose hp
          simp at hp
          exact absurd hp (hno pose)
    · simp only [Prod.mk.injEq] at h2
      obtain ⟨rfl, rfl⟩ := h2
      rcases hb with hb | ⟨b, hb⟩
      · refine ⟨_, by simp only [hb, List.append_assoc]; rfl, ?_⟩
        intro pose hp
        simp at hp
      · refine ⟨_, by simp only [hb, List.append_assoc]; rfl, ?_⟩
        intro pose hp
        simp at hp
  · obtain ⟨bs, hbs, hclass⟩ := Run_bitrate_emits env _ _ _ h1
    refine ⟨bs, hbs, ?_⟩
    intro pose hp
    have := hclass _ hp
    simp [Call.is_bitrate] at this

theorem Run_iteration_any {σ : Type} (env : Env σ) (P : Protocol) (fuel : Nat) (client : Int)
    (l : Locals) (w : World σ) (res : Res Locals) (w1 : World σ)
    (h : Run_iteration env P fuel client l w = (res, w1)) :
    ∃ chan bs fs mem, w1.trace = w.trace ++ chan ++ bs ++ fs ∧
      (∀ c ∈ chan, c.is_channel = true) ∧ (∀ c ∈ bs, c.is_bitrate = true) ∧
      FrameSeg P mem l res fs := by
  unfold Run_iteration at h
  rcases bind_cases _ _ _ _ _ h with ⟨mem, v1, h1, h2⟩ | ⟨hn, r, h1⟩
  swap
  · obtain ⟨chan, hchan, hclass⟩ := read_latest_emits env client fuel _ _ _ _ _ _ h1
    exact ⟨chan, [], [], l.frame_info, by simpa using hchan, hclass, by simp,
      Or.inl ⟨hn, Or.inl rfl⟩⟩
  obtain ⟨chan, hchan, hclass⟩ := read_latest_emits env client fuel _ _ _ _ _ _ h1
  unfold Run_frame at h2
  rcases bind_cases _ _ _ _ _ h2 with ⟨u, v2, h3, h4⟩ | ⟨hn, r, h3⟩
  swap
  · obtain ⟨bs, hbs, hbclass⟩ := Run_bitrate_emits env _ _ _ h3
    exact ⟨chan, bs, [], mem, by rw [hbs, hchan]; simp, hclass, hbclass, Or.inl ⟨hn, Or.inl rfl⟩⟩
  obtain ⟨bs, hbs, hbclass⟩ := Run_bitrate_emits env _ _ _ h3
  rcases invoke_bind_cases _ _ _ _ _ _ h4 with ⟨pose, v3, t3, h5⟩ | ⟨hn, t⟩
  swap
  · exact ⟨chan, bs, _, mem, by rw [t, hbs, hchan], hclass, hbclass, Or.inl ⟨hn, Or.inr rfl⟩⟩
  cases pose with
  | none =>
    simp only [pure_apply, Prod.mk.injEq] at h5
    obtain ⟨rfl, rfl⟩ := h5
    exact ⟨chan, bs, _, mem, by rw [t3, hbs, hchan], hclass, hbclass, Or.inr (Or.inl ⟨rfl, rfl⟩)⟩
  | some ts =>
    simp only at h5
    obtain ⟨es, hes, hseg⟩ := Run_encode_any env mem _ ts v3 res w1 h5
    exact ⟨chan, bs, _, mem, by rw [hes, t3, hbs, hchan]; simp, hclass, hbclass,
      Or.inr (Or.inr ⟨ts, es, rfl, hseg⟩)⟩

theorem channel_tally (chan : List Call) (h : ∀ c ∈ chan, c.is_channel = true) :
    matched chan = [] ∧ pushed chan = [] ∧ rendered chan = [] ∧ pulled chan = [] ∧
      sent chan = [] := by
  refine ⟨?_, ?_, ?_, ?_, ?_⟩ <;>
  · refine filterMap_none _ _ (fun c hc => ?_)
    have hcl := h c hc
    cases c <;> simp [Call.is_channel] at hcl ⊢

theorem bitrate_tally (bs : List Call) (h : ∀ c ∈ bs, c.is_bitrate = true) :
    pulled bs = [] ∧ sent bs = [] := by
  refine ⟨?_, ?_⟩ <;>
  · refine filterMap_none _ _ (fun c hc => ?_)
    have hcl := h c hc
    cases c <;> simp [Call.is_bitrate] at hcl ⊢

theorem Run_iteration_sent {σ : Type} (env : Env σ) (P : Protocol) (fuel : Nat) (client : Int)
    (l : Locals) (w : World σ) (res : Res Locals) (w1 : World σ)
    (h : Run_iteration env P fuel client l w = (res, w1)) :
    ∃ seg, w1.trace = w.trace ++ seg ∧ (sent seg).length = (pulled seg).length := by
  obtain ⟨chan, bs, fs, mem, ht, hclass, hbclass, hseg⟩ :=
    Run_iteration_any env P fuel client l w res w1 h
  obtain ⟨_, _, _, hc4, hc5⟩ := channel_tally chan hclass
  obtain ⟨hb4, hb5⟩ := bitrate_tally bs hbclass
  refine ⟨chan ++ bs ++ fs, by rw [ht]; simp, ?_⟩
  have hfs : (sent fs).length = (pulled fs).length := by
    rcases hseg with ⟨_, rfl | rfl⟩ | ⟨_, rfl⟩ | ⟨ts, es, rfl, hes⟩
    · rfl
    · simp [sent, pulled]
    · simp [sent, pulled]
    · rcases hes with ⟨_, rfl | rfl | rfl | rfl⟩ | ⟨idr, ⟨_, rfl | rfl⟩ | ⟨_, _, _, rfl⟩ |
        ⟨data, pts, ⟨_, rfl | rfl⟩ | ⟨_, rfl⟩⟩⟩ <;> simp [sent, pulled, push_calls]
  unfold sent pulled at *
  simp only [List.filterMap_append, List.length_append, hc4, hc5, hb4, hb5, hfs]
  simp

theorem Run_loop_sent {σ : Type} (env : Env σ) (P : Protocol) (inner : Nat) (client : Int) :
    ∀ (fuel : Nat) (l : Locals) (w : World σ) (res : Res Locals) (w2 : World σ),
      Run_loop env P inner client fuel l w = (res, w2) →
      ∃ seg, w2.trace = w.trace ++ seg ∧ (sent seg).length = (pulled seg).length := by
  intro fuel
  induction fuel with
  | zero =>
    intro l w res w2 h
    simp only [Run_loop, halt, Prod.mk.injEq] at h
    exact ⟨[], by rw [← h.2]; simp, rfl⟩
  | succ fuel ih =>
    intro l w res w2 h
    rw [Run_loop, ask_bind] at h
    split at h
    · rcases bind_cases _ _ _ _ _ h with ⟨l1, w1, h1, h2⟩ | ⟨_, r, h1⟩
      · obtain ⟨s1, ht1, hs1⟩ := Run_iteration_sent env P inner client l _ _ w1 h1
        obtain ⟨s2, ht2, hs2⟩ := ih l1 w1 res w2 h2
        refine ⟨[Call.exiting (env.exiting w.sys).1] ++ s1 ++ s2, by rw [ht2, ht1]; simp, ?_⟩
        unfold sent pulled at *
        simp only [List.filterMap_append, List.length_append, hs1, hs2]
        simp
      · obtain ⟨s1, ht1, hs1⟩ := Run_iteration_sent env P inner client l _ _ w2 h1
        refine ⟨[Call.exiting (env.exiting w.sys).1] ++ s1, by rw [ht1]; simp, ?_⟩
        unfold sent pulled at *
        simp only [List.filterMap_append, List.length_append, hs1]
        simp
    · simp only [pure_apply, Prod.mk.injEq] at h
      refine ⟨[Call.exiting (env.exiting w.sys).1], by rw [← h.2], ?_⟩
      simp [sent, pulled]

/-! ### The main loop: what is called, and in which order -/

/-- C3, as the code has it: in an iteration of the main loop, after the calls of
`read_latest`, if the pose lookup finds no record then the iteration continues
normally and its calls are the query for a bitrate update, then, only if an update
is pending, `GetBitrate` and `SetBitrate`, then the pose lookup, and nothing else: no
`Render`, `PushFrame`, `GetEncoded`, `SendVideo` or `EncodeOutput`. -/
theorem unmatched_iteration_calls {σ : Type} (env : Env σ) (P : Protocol) (fuel : Nat)
    (client : Int) (l : Locals) (w : World σ) (res : Res Locals) (w1 : World σ)
    (h : Run_iteration env P fuel client l w = (res, w1)) :
    ∃ chan rest, w1.trace = w.trace ++ chan ++ rest ∧ (∀ c ∈ chan, c.is_channel = true) ∧
      ∀ pose, Call.GetBestPoseMatch pose (some none) ∈ rest →
        (∃ mem, res = Res.ok { frame_info := mem, encoded_data := l.encoded_data }) ∧
        (rest = [Call.CheckBitrateUpdated (some false), Call.GetBestPoseMatch pose (some none)] ∨
          ∃ b, rest = [Call.CheckBitrateUpdated (some true), Call.GetBitrate (some b),
            Call.SetBitrate (b * 1000000), Call.GetBestPoseMatch pose (some none)]) := by
  unfold Run_iteration at h
  rcases bind_cases _ _ _ _ _ h with ⟨mem, v1, h1, h2⟩ | ⟨_, r, h1⟩
  · obtain ⟨chan, hchan, hclass⟩ := read_latest_emits env client fuel _ _ _ _ _ _ h1
    obtain ⟨rest, hrest, hshape⟩ := Run_frame_unmatched env P mem l v1 res w1 h2
    refine ⟨chan, rest, by rw [hrest, hchan], hclass, ?_⟩
    intro pose hp
    exact ⟨⟨mem, (hshape pose hp).1⟩, (hshape pose hp).2⟩
  · obtain ⟨chan, hchan, hclass⟩ := read_latest_emits env client fuel _ _ _ _ _ _ h1
    exact ⟨chan, [], by simpa using hchan, hclass, by simp⟩

/-- C3, an instance: a record arrives, no bitrate update is pending and no pose
matches. -/
theorem unmatched_iteration_calls_witness :
    ∃ chan rest,
      [Call.exiting false, Call.poll 7 1 1, Call.read 7 0 3 (some [5, 6, 7]), Call.exiting false,
        Call.exiting false, Call.poll 7 0 0, Call.CheckBitrateUpdated (some false),
        Call.GetBestPoseMatch [7] (some none)] = [] ++ chan ++ rest ∧
      (∀ c ∈ chan, c.is_channel = true) ∧
      ∀ pose, Call.GetBestPoseMatch pose (some none) ∈ rest →
        (∃ mem, (Res.ok { frame_info := [5, 6, 7], encoded_data := [] } : Res Locals) =
          Res.ok { frame_info := mem, encoded_data := [] }) ∧
        (rest = [Call.CheckBitrateUpdated (some false), Call.GetBestPoseMatch pose (some none)] ∨
          ∃ b, rest = [Call.CheckBitrateUpdated (some true), Call.GetBitrate (some b),
            Call.SetBitrate (b * 1000000), Call.GetBestPoseMatch pose (some none)]) :=
  unmatched_iteration_calls scripted tiny 2 7 { frame_info := [9, 9, 9], encoded_data := [] }
    { sys := [Answer.flag false, Answer.ready 1, Answer.data (some [5, 6, 7]),
        Answer.flag false, Answer.flag false, Answer.ready 0, Answer.updated false,
        Answer.pose none],
      trace := [] }
    (Res.ok { frame_info := [5, 6, 7], encoded_data := [] })
    { sys := [],
      trace := [Call.exiting false, Call.poll 7 1 1, Call.read 7 0 3 (some [5, 6, 7]),
        Call.exiting false, Call.exiting false, Call.poll 7 0 0,
        Call.CheckBitrateUpdated (some false), Call.GetBestPoseMatch [7] (some none)] }
    (by rfl)

/-- C3 fails as stated: with a bitrate update pending, an iteration whose pose lookup
finds no record still calls `SetBitrate` on the encoder pipeline. -/
theorem unmatched_iteration_sets_bitrate :
    Run_iteration scripted tiny 10 7 { frame_info := [9, 9, 9], encoded_data := [] }
      { sys := [Answer.flag false, Answer.ready 1, Answer.data (some [5, 6, 7]),
          Answer.flag false, Answer.flag false, Answer.ready 0, Answer.updated true,
          Answer.pose none],
        trace := [] } =
      (Res.ok { frame_info := [5, 6, 7], encoded_data := [] },
        { sys := [],
          trace := [Call.exiting false, Call.poll 7 1 1, Call.read 7 0 3 (some [5, 6, 7]),
            Call.exiting false, Call.exiting false, Call.poll 7 0 0,
            Call.CheckBitrateUpdated (some true), Call.GetBitrate (some 30),
            Call.SetBitrate 30000000, Call.GetBestPoseMatch [7] (some none)] }) := by
  rfl

/-- C9, as the code has it: in an iteration of the main loop, whatever its outcome,
every encoder pull is made on the emptied buffer; a pull that returns true, leaving
the bytes `data` in the buffer and the timestamp `pts`, is followed at once by
`SendVideo` with `data`, the length of `data` and `pts`, then by `EncodeOutput`
unless `SendVideo` raised, with no other `SendVideo` or `EncodeOutput` in the
iteration, and when the iteration ends normally the buffer still holds `data`; if no
pull returns true there is no `SendVideo` and no `EncodeOutput`.  Over any run of the
loop there are as many `SendVideo` calls as pulls that returned true. -/
theorem encoded_output_forwarded {σ : Type} (env : Env σ) (P : Protocol) (inner : Nat)
    (client : Int) (l : Locals) (w : World σ) (res : Res Locals) (w1 : World σ)
    (hiter : Run_iteration env P inner client l w = (res, w1))
    (fuel : Nat) (l0 : Locals) (w0 : World σ) (res2 : Res Locals) (w2 : World σ)
    (hloop : Run_loop env P inner client fuel l0 w0 = (res2, w2)) :
    (∃ chan rest, w1.trace = w.trace ++ chan ++ rest ∧ (∀ c ∈ chan, c.is_channel = true) ∧
      (∀ d r, Call.GetEncoded d r ∈ rest → d = []) ∧
      (∀ d data pts, Call.GetEncoded d (some (true, data, pts)) ∈ rest →
        ∃ pre tail,
          rest = pre ++ [Call.GetEncoded [] (some (true, data, pts)),
            Call.SendVideo data data.length pts] ++ tail ∧
          sent pre = [] ∧ Call.EncodeOutput ∉ pre ∧
          (tail = [] ∨ tail = [Call.EncodeOutput]) ∧
          ∀ l1, res = Res.ok l1 → tail = [Call.EncodeOutput] ∧ l1.encoded_data = data) ∧
      ((∀ d data pts, Call.GetEncoded d (some (true, data, pts)) ∉ rest) →
        sent rest = [] ∧ Call.EncodeOutput ∉ rest)) ∧
    (∃ seg, w2.trace = w0.trace ++ seg ∧ (sent seg).length = (pulled seg).length) := by
  constructor
  · obtain ⟨chan, bs, fs, mem, ht, hclass, hbclass, hseg⟩ :=
      Run_iteration_any env P inner client l w res w1 hiter
    have hbg : ∀ d r, Call.GetEncoded d r ∉ bs := by
      intro d r hm
      have := hbclass _ hm
      simp [Call.is_bitrate] at this
    have hbe : Call.EncodeOutput ∉ bs := by
      intro hm
      have := hbclass _ hm
      simp [Call.is_bitrate] at this
    have hbs : sent bs = [] := (bitrate_tally bs hbclass).2
    have hsent : ∀ a b : List Call, sent (a ++ b) = sent a ++ sent b := by
      intro a b
      simp [sent]
    refine ⟨chan, bs ++ fs, by rw [ht]; simp, hclass, ?_⟩
    rcases hseg with ⟨hn, rfl | rfl⟩ | ⟨rfl, rfl⟩ | ⟨ts0, es, rfl, hes⟩
    · refine ⟨?_, ?_, ?_⟩
      · intro d r hm
        simp only [List.append_nil] at hm
        exact absurd hm (hbg d r)
      · intro d data pts hm
        simp only [List.append_nil] at hm
        exact absurd hm (hbg d _)
      · intro _
        simp only [List.append_nil]
        exact ⟨hbs, hbe⟩
    · refine ⟨?_, ?_, ?_⟩
      · intro d r hm
        rcases List.mem_append.mp hm with hm | hm
        · exact absurd hm (hbg d r)
        · simp at hm
      · intro d data pts hm
        rcases List.mem_append.mp hm with hm | hm
        · exact absurd hm (hbg d _)
        · simp at hm
      · intro _
        refine ⟨by rw [hsent, hbs]; simp [sent], ?_⟩
        intro hm
        rcases List.mem_append.mp hm with hm | hm
        · exact hbe hm
        · simp at hm
    · refine ⟨?_, ?_, ?_⟩
      · intro d r hm
        rcases List.mem_append.mp hm with hm | hm
        · exact absurd hm (hbg d r)
        · simp at hm
      · intro d data pts hm
        rcases List.mem_append.mp hm with hm | hm
        · exact absurd hm (hbg d _)
        · simp at hm
      · intro _
        refine ⟨by rw [hsent, hbs]; simp [sent], ?_⟩
        intro hm
        rcases List.mem_append.mp hm with hm | hm
        · exact hbe hm
        · simp at hm
    · obtain ⟨hclear, hyes, hno⟩ := EncodeSeg_pull _ _ _ _ _ _ hes
      refine ⟨?_, ?_, ?_⟩
      · intro d r hm
        rcases List.mem_append.mp hm with hm | hm
        · exact absurd hm (hbg d r)
        · rcases List.mem_cons.mp hm with hm | hm
          · cases hm
          · exact hclear d r hm
      · intro d data pts hm
        have hes2 : Call.GetEncoded d (some (true, data, pts)) ∈ es := by
          rcases List.mem_append.mp hm with hm | hm
          · exact absurd hm (hbg d _)
          · rcases List.mem_cons.mp hm with hm | hm
            · cases hm
            · exact hm
        obtain ⟨idr, tail, rfl, htail, hfin⟩ := hyes d data pts hes2
        refine ⟨bs ++ Call.GetBestPoseMatch (P.as_present_packet mem).pose (some (some ts0)) ::
          push_calls ts0 (P.as_present_packet mem).image
            (P.as_present_packet mem).semaphore_value idr, tail, by simp, ?_, ?_,
          htail, hfin⟩
        · rw [hsent, hbs]
          simp [sent, push_calls]
        · intro hm2
          rcases List.mem_append.mp hm2 with hm2 | hm2
          · exact hbe hm2
          · simp [push_calls] at hm2
      · intro hnone
        have hes2 : ∀ d data pts, Call.GetEncoded d (some (true, data, pts)) ∉ es := by
          intro d data pts hm
          exact hnone d data pts (by simp [hm])
        obtain ⟨hs, he⟩ := hno hes2
        refine ⟨?_, ?_⟩
        · rw [hsent, hbs]
          have : sent (Call.GetBestPoseMatch (P.as_present_packet mem).pose (some (some ts0)) :: es)
              = sent es := by simp [sent]
          rw [this, hs]
          rfl
        · intro hm
          rcases List.mem_append.mp hm with hm | hm
          · exact hbe hm
          · rcases List.mem_cons.mp hm with hm | hm
            · cases hm
            · exact he hm
  · exact Run_loop_sent env P inner client fuel l0 w0 res2 w2 hloop

/-- C9, an instance: one matched iteration, pose timestamp 42, whose pull yields two
bytes with timestamp 77, and a run of three matched iterations of which only the
third yields output. -/
theorem encoded_output_forwarded_witness :
    (∃ chan rest,
      one_record 5 6 7 ++
        [Call.CheckBitrateUpdated (some false), Call.GetBestPoseMatch [7] (some (some 42)),
          Call.ReportPresent 42, Call.Render 5 6, Call.ReportComposed 42,
          Call.CheckIDRInsertion (some true), Call.PushFrame 42 true,
          Call.GetEncoded [] (some (true, [1, 2], 77)), Call.SendVideo [1, 2] 2 77,
          Call.EncodeOutput] = [] ++ chan ++ rest ∧
      (∀ c ∈ chan, c.is_channel = true) ∧
      (∀ d r, Call.GetEncoded d r ∈ rest → d = []) ∧
      (∀ d data pts, Call.GetEncoded d (some (true, data, pts)) ∈ rest →
        ∃ pre tail,
          rest = pre ++ [Call.GetEncoded [] (some (true, data, pts)),
            Call.SendVideo data data.length pts] ++ tail ∧
          sent pre = [] ∧ Call.EncodeOutput ∉ pre ∧
          (tail = [] ∨ tail = [Call.EncodeOutput]) ∧
          ∀ l1, (Res.ok { frame_info := [5, 6, 7], encoded_data := [1, 2] } : Res Locals) =
              Res.ok l1 →
            tail = [Call.EncodeOutput] ∧ l1.encoded_data = data) ∧
      ((∀ d data pts, Call.GetEncoded d (some (true, data, pts)) ∉ rest) →
        sent rest = [] ∧ Call.EncodeOutput ∉ rest)) ∧
    (∃ seg, three_frames_trace = [] ++ seg ∧ (sent seg).length = (pulled seg).length) :=
  encoded_output_forwarded scripted tiny 10 7 { frame_info := [9, 9, 9], encoded_data := [] }
    { sys := one_frame (Answer.pull true [1, 2] 77), trace := [] }
    (Res.ok { frame_info := [5, 6, 7], encoded_data := [1, 2] })
    { sys := [],
      trace := one_record 5 6 7 ++
        [Call.CheckBitrateUpdated (some false), Call.GetBestPoseMatch [7] (some (some 42)),
          Call.ReportPresent 42, Call.Render 5 6, Call.ReportComposed 42,
          Call.CheckIDRInsertion (some true), Call.PushFrame 42 true,
          Call.GetEncoded [] (some (true, [1, 2], 77)), Call.SendVideo [1, 2] 2 77,
          Call.EncodeOutput] }
    (by rfl) 10 { frame_info := [9, 9, 9], encoded_data := [] }
    { sys := three_frames, trace := [] }
    (Res.ok { frame_info := [11, 12, 13], encoded_data := [1, 2] })
    { sys := [], trace := three_frames_trace } (by decide)

/-- C9 fails as stated: the accumulation buffer is emptied before the pull, not after
the forward; an iteration whose pull yields the bytes `1 2` with timestamp 77 forwards
them with that timestamp and ends, `EncodeOutput` recorded, with the buffer still
holding `1 2`. -/
theorem buffer_not_cleared_after_forward :
    Run_iteration scripted tiny 10 7 { frame_info := [9, 9, 9], encoded_data := [] }
      { sys := one_frame (Answer.pull true [1, 2] 77), trace := [] } =
      (Res.ok { frame_info := [5, 6, 7], encoded_data := [1, 2] },
        { sys := [],
          trace := one_record 5 6 7 ++
            [Call.CheckBitrateUpdated (some false), Call.GetBestPoseMatch [7] (some (some 42)),
              Call.ReportPresent 42, Call.Render 5 6, Call.ReportComposed 42,
              Call.CheckIDRInsertion (some true), Call.PushFrame 42 true,
              Call.GetEncoded [] (some (true, [1, 2], 77)), Call.SendVideo [1, 2] 2 77,
              Call.EncodeOutput] }) := by
  rfl

/-- C6: the flag is clear at the head of the loop and set while `read_latest` waits;
`read_latest` returns without a byte read, and the iteration goes on with the stale
bytes `9 8 7` of `frame_info`: bitrate query, pose lookup, `Render 9 8`, `PushFrame`,
`GetEncoded` and `SendVideo` all happen before the loop sees the flag. -/
theorem cancelled_read_still_processed :
    Run_loop scripted tiny 10 7 10 { frame_info := [9, 8, 7], encoded_data := [] }
      { sys := [Answer.flag false, Answer.flag true, Answer.flag true, Answer.updated false,
          Answer.pose (some 42), Answer.idr false, Answer.pull true [1, 2] 42, Answer.flag true],
        trace := [] } =
      (Res.ok { frame_info := [9, 8, 7], encoded_data := [1, 2] },
        { sys := [],
          trace := [Call.exiting false, Call.exiting true, Call.exiting true,
            Call.CheckBitrateUpdated (some false), Call.GetBestPoseMatch [7] (some (some 42)),
            Call.ReportPresent 42, Call.Render 9 8, Call.ReportComposed 42,
            Call.CheckIDRInsertion (some false), Call.PushFrame 42 false,
            Call.GetEncoded [] (some (true, [1, 2], 42)), Call.SendVideo [1, 2] 2 42,
            Call.EncodeOutput,
            Call.exiting true] }) := by
  decide

/-! ### The session: descriptors, handshake and teardown -/

theorem GetFds_scan_none (received_fds : List Int) (control : List Cmsg)
    (h : ∀ c ∈ control, ¬(c.cmsg_level = SOL_SOCKET ∧ c.cmsg_type = SCM_RIGHTS)) :
    GetFds_scan received_fds control = none := by
  induction control with
  | nil => rfl
  | cons c rest ih =>
    have hc := h c (by simp)
    have hr := ih (fun x hx => h x (by simp [hx]))
    simp only [GetFds_scan, Bool.and_eq_true, beq_iff_eq, hc, ↓reduceIte, hr]

theorem GetFds_without_rights {σ : Type} (env : Env σ) (client : Int) (received_fds : List Int)
    (w : World σ)
    (h : ∀ c ∈ (env.recvmsg client w.sys).1.control,
      ¬(c.cmsg_level = SOL_SOCKET ∧ c.cmsg_type = SCM_RIGHTS)) :
    ∃ e, (GetFds env client received_fds w).1 = Res.throw e := by
  unfold GetFds
  rw [ask_bind]
  split
  · exact ⟨_, rfl⟩
  · rw [GetFds_scan_none _ _ h]
    exact ⟨_, rfl⟩

/-- C4: a message whose `SCM_RIGHTS` control message carries the three descriptors
10, 11 and 12 makes `GetFds` return normally, with slots 3 to 5 filled from what lies
behind the payload in the control buffer. -/
theorem GetFds_short_message :
    GetFds scripted 7 no_fds
      { sys := [Answer.msg short_message], trace := [] } =
      (Res.ok [10, 11, 12, 0, 32764, -1],
        { sys := [], trace := [Call.recvmsg 7 short_message] }) := by
  rfl

/-- C5, as the code has it: compiled with assertions, the code after the handshake
read aborts at once, before any call, when the record has a non-zero
`queueFamilyIndexCount` or a non-null `pNext`. -/
theorem handshake_assertions {σ : Type} (env : Env σ) (P : Protocol) (fuel : Nat)
    (client : Int) (init_mem frame_info : List Byte) (m_fds : List Int) (w : World σ)
    (h : (P.as_init_packet init_mem).image_create_info.queueFamilyIndexCount ≠ 0 ∨
      (P.as_init_packet init_mem).image_create_info.pNext ≠ 0) :
    Run_connected env P false fuel client init_mem frame_info m_fds w = (Res.abort, w) := by
  unfold Run_connected
  by_cases hq : (P.as_init_packet init_mem).image_create_info.queueFamilyIndexCount = 0
  · have hp : (P.as_init_packet init_mem).image_create_info.pNext ≠ 0 := by
      rcases h with h | h
      · exact absurd hq h
      · exact h
    simp [hq, hp, halt]
  · simp [hq, halt]

/-- C5, an instance: a handshake record with `queueFamilyIndexCount = 3`. -/
theorem handshake_assertions_witness :
    Run_connected scripted tiny false 10 7 [1, 0, 3, 0] [9, 8, 7] no_fds
      { sys := [], trace := [] } = (Res.abort, { sys := [], trace := [] }) :=
  handshake_assertions scripted tiny 10 7 [1, 0, 3, 0] [9, 8, 7] no_fds
    { sys := [], trace := [] } (by decide)

/-- C5 fails as stated: a handshake record whose `pQueueFamilyIndices` is 5, with
`queueFamilyIndexCount` and `pNext` zero, passes both assertions; `recvmsg` is called
on the connection and the session is set up. -/
theorem handshake_pointer_not_checked :
    (tiny.as_init_packet [1, 0, 0, 5]).image_create_info.pQueueFamilyIndices = 5 ∧
    Run scripted tiny false 10 [0, 0, 0, 0] [9, 8, 7] no_fds
      { sys := [Answer.flag false, Answer.ready 1, Answer.conn 7, Answer.flag false,
          Answer.flag false, Answer.ready 1, Answer.data (some [1, 0, 0, 5]), Answer.flag false,
          Answer.flag false, Answer.msg full_message, Answer.flag true],
        trace := [] } =
      (Res.ok (),
        { sys := [],
          trace := [Call.unlink, Call.socket 3, Call.bind 3 0, Call.listen 3 1024 0,
            Call.exiting false, Call.poll 3 15 1, Call.accept 3 7, Call.exiting false,
            Call.exiting false, Call.poll 7 1 1, Call.read 7 0 4 (some [1, 0, 0, 5]),
            Call.exiting false, Call.exiting false,
            Call.recvmsg 7 full_message, Call.connected, Call.VkContext [], Call.FrameRender [10, 11, 12, 13, 14, 15],
            Call.CreateOutput, Call.VkFrameCtx, Call.VkFrame, Call.EncodePipelineCreate,
            Call.exiting true, Call.close 7] }) := by
  decide

theorem GetFds_emits {σ : Type} (env : Env σ) (client : Int) (received_fds : List Int) :
    Emits (fun _ => True) (GetFds env client received_fds) := by
  unfold GetFds
  refine emits_bind _ _ (emits_ask _ _ (fun _ => trivial)) (fun msg => ?_)
  split
  · exact emits_raise _
  · split
    · exact emits_pure _
    · exact emits_raise _

theorem Run_iteration_emits {σ : Type} (env : Env σ) (P : Protocol) (fuel : Nat) (client : Int)
    (l : Locals) : Emits (fun _ => True) (Run_iteration env P fuel client l) := by
  unfold Run_iteration
  refine emits_bind _ _ (emits_mono _ (read_latest_emits env client fuel _ _ _)
    (fun _ _ => trivial)) (fun mem => ?_)
  unfold Run_frame
  refine emits_bind _ _ (emits_mono _ (Run_bitrate_emits env) (fun _ _ => trivial)) (fun _ => ?_)
  refine emits_bind _ _ (emits_invoke _ _ (fun _ => trivial)) (fun pose => ?_)
  split
  · exact emits_pure _
  · exact emits_mono _ (Run_encode_emits env _ _ _) (fun _ _ => trivial)

theorem Run_loop_emits {σ : Type} (env : Env σ) (P : Protocol) (inner : Nat) (client : Int)
    (fuel : Nat) : ∀ l : Locals, Emits (fun _ => True) (Run_loop env P inner client fuel l) := by
  induction fuel with
  | zero => intro l; exact emits_halt _
  | succ fuel ih =>
    intro l
    rw [Run_loop]
    refine emits_bind _ _ (emits_ask _ _ (fun _ => trivial)) (fun exiting => ?_)
    split
    · exact emits_bind _ _ (Run_iteration_emits env P inner client l) (fun l1 => ih l1)
    · exact emits_pure _

theorem Run_session_emits {σ : Type} (env : Env σ) (P : Protocol) (fuel : Nat) (client : Int)
    (init : init_packet) (frame_info : List Byte) (m_fds : List Int) :
    Emits (fun _ => True) (Run_session env P fuel client init frame_info m_fds) := by
  unfold Run_session
  refine emits_bind _ _ (GetFds_emits env client m_fds) (fun fds => ?_)
  refine emits_bind _ _ (emits_emit _ trivial) (fun _ => ?_)
  refine emits_bind _ _ (emits_invoke _ _ (fun _ => trivial)) (fun _ => ?_)
  refine emits_bind _ _ (emits_invoke _ _ (fun _ => trivial)) (fun _ => ?_)
  refine emits_bind _ _ (emits_invoke _ _ (fun _ => trivial)) (fun _ => ?_)
  refine emits_bind _ _ (emits_invoke _ _ (fun _ => trivial)) (fun _ => ?_)
  refine emits_bind _ _ (emits_invoke _ _ (fun _ => trivial)) (fun _ => ?_)
  refine emits_bind _ _ (emits_invoke _ _ (fun _ => trivial)) (fun _ => ?_)
  exact emits_bind _ _ (Run_loop_emits env P fuel client fuel _) (fun _ => emits_pure _)

/-- Once the handshake record has passed the assertions, no exception leaves `Run`,
and whenever `Run` then returns its last call is `close(client.fd)`: a failed
`GetFds`, an exception in the set-up or in the main loop, and the main loop ending on
the flag all reach line 258. -/
theorem Run_connected_closes {σ : Type} (env : Env σ) (P : Protocol) (ndebug : Bool)
    (fuel : Nat) (client : Int) (init_mem frame_info : List Byte) (m_fds : List Int)
    (w : World σ) (res : Res Unit) (w1 : World σ)
    (h : Run_connected env P ndebug fuel client init_mem frame_info m_fds w = (res, w1)) :
    (∀ e, res ≠ Res.throw e) ∧
      (res = Res.ok () → ∃ seg, w1.trace = w.trace ++ seg ++ [Call.close client]) := by
  unfold Run_connected at h
  split at h
  · simp only [halt, Prod.mk.injEq] at h
    obtain ⟨rfl, rfl⟩ := h
    exact ⟨fun e he => (by cases he), fun he => (by cases he)⟩
  · split at h
    · simp only [halt, Prod.mk.injEq] at h
      obtain ⟨rfl, rfl⟩ := h
      exact ⟨fun e he => (by cases he), fun he => (by cases he)⟩
    · constructor
      · intro e he
        subst he
        rcases bind_throw _ _ _ _ _ h with h1 | ⟨a, w0, _, h2⟩
        · simp only [try_catch] at h1
          split at h1
          · simp [emit] at h1
          · rename_i hne
            exact hne e w1 h1
        · simp [emit] at h2
      · intro he
        subst he
        rw [bind_ok] at h
        obtain ⟨a, w0, h1, h2⟩ := h
        obtain ⟨seg, hseg, _⟩ := emits_try_catch _ _
          (Run_session_emits env P fuel client (P.as_init_packet init_mem) frame_info m_fds)
          (fun e => emits_emit (Call.Error e) trivial) w _ _ h1
        simp only [emit, Prod.mk.injEq, Res.ok.injEq, true_and] at h2
        refine ⟨seg, ?_⟩
        rw [← h2, hseg]

/-- C7: with the producer accepted on descriptor 7, `Run` is left without `close(7)`
both when the flag is set during the handshake read (normal return at line 174) and
when `poll` fails during the handshake read (the exception leaves `Run`). -/
theorem connection_left_open :
    Run scripted tiny false 10 [0, 0, 0, 0] [9, 8, 7] no_fds
      { sys := [Answer.flag false, Answer.ready 1, Answer.conn 7, Answer.flag false,
          Answer.flag false, Answer.ready 1, Answer.data (some [1, 0]), Answer.flag true,
          Answer.flag true],
        trace := [] } =
      (Res.ok (),
        { sys := [],
          trace := [Call.unlink, Call.socket 3, Call.bind 3 0, Call.listen 3 1024 0,
            Call.exiting false, Call.poll 3 15 1, Call.accept 3 7, Call.exiting false,
            Call.exiting false, Call.poll 7 1 1, Call.read 7 0 4 (some [1, 0]),
            Call.exiting true, Call.exiting true] }) ∧
    Run scripted tiny false 10 [0, 0, 0, 0] [9, 8, 7] no_fds
      { sys := [Answer.flag false, Answer.ready 1, Answer.conn 7, Answer.flag false,
          Answer.flag false, Answer.ready (-1)],
        trace := [] } =
      (Res.throw Exn.poll_failed,
        { sys := [],
          trace := [Call.unlink, Call.socket 3, Call.bind 3 0, Call.listen 3 1024 0,
            Call.exiting false, Call.poll 3 15 1, Call.accept 3 7, Call.exiting false,
            Call.exiting false, Call.poll 7 1 (-1)] }) := by
  decide

end ALVR
